import Mathlib

/-!
# srttools: concatenation of SubRip (.srt) subtitle files

A shallow embedding of `srttools.go` and the properties of its timestamp
codec, line classifier, file scanners and concatenation driver.

Modelling conventions.

* A Go `string` / `[]byte` is the list of its bytes, one `Char` per byte
  (`Str`).  Every byte the program inspects is ASCII.
* Go `int` is the 64-bit two's-complement integer: values are `Int`s and
  every addition or multiplication of the source is wrapped by `wrapInt`;
  `uint(x)` is `toUint`.  `/` and `%` on `int` truncate toward zero
  (`Int.tdiv`, `Int.tmod`).
* A function that can panic returns `Option`; `none` is the panic.
* A Go `error` result is an `Option`; `none` is `nil`.
* A file is `Option Str`: `none` when `os.Open` fails, otherwise the bytes
  read.  Input files are not modified during a run (the output path is not
  one of the inputs) and writes to the output do not fail.
* `bufio.Reader.ReadLine` is modelled with its 4096-byte buffer: a line that
  does not fit the buffer is returned in pieces, and the program, which
  discards the `isPrefix` result, takes every piece for a line.
-/

namespace Srttools

/-- A Go string: its bytes in order. -/
abbrev Str := List Char

/-! ## Go `int` and `uint` (64 bit) -/

/-- Two's-complement reduction of an integer to the range of a 64-bit `int`. -/
def wrapInt (x : Int) : Int := (x + 9223372036854775808) % 18446744073709551616 - 9223372036854775808

/-- Go `a + b` on `int`. -/
def goAdd (a b : Int) : Int := wrapInt (a + b)

/-- Go `a * b` on `int`. -/
def goMul (a b : Int) : Int := wrapInt (a * b)

/-- Go conversion `uint(x)` of an `int`. -/
def toUint (x : Int) : Nat := (x % 18446744073709551616).toNat

/-- The values a Go `int` can hold. -/
def InIntRange (x : Int) : Prop := -9223372036854775808 ≤ x ∧ x ≤ 9223372036854775807

instance (x : Int) : Decidable (InIntRange x) := by unfold InIntRange; infer_instance

/-! ## `strconv` and `fmt` -/

/-- The two kinds of `*strconv.NumError`. -/
inductive NumError where
  | ErrSyntax
  | ErrRange
  deriving DecidableEq, Repr

/-- The digit loop of `strconv.ParseUint(s, 10, 64)`: a byte that is not a
decimal digit is a syntax error, a value above `2^64 - 1` a range error. -/
def parseUintLoop : Nat → Str → Except NumError Nat
  | n, [] => .ok n
  | n, c :: cs =>
    if c.isDigit then
      let n1 := n * 10 + (c.toNat - 48)
      if 18446744073709551616 ≤ n1 then .error .ErrRange else parseUintLoop n1 cs
    else .error .ErrSyntax

/-- Model of `strconv.Atoi` for a 64-bit `int`: an optional sign followed by one
or more decimal digits.  Returns the value together with the error; on a syntax
error the value is 0, on a range error it is the nearest bound of `int`. -/
def Atoi (s : Str) : Int × Option NumError :=
  match s with
  | [] => (0, some .ErrSyntax)
  | c :: cs =>
    let neg : Bool := c == '-'
    let body := if c == '+' || c == '-' then cs else s
    if body.isEmpty then (0, some .ErrSyntax)
    else
      match parseUintLoop 0 body with
      | .error .ErrSyntax => (0, some .ErrSyntax)
      | .error .ErrRange =>
        if neg then (-9223372036854775808, some .ErrRange) else (9223372036854775807, some .ErrRange)
      | .ok un =>
        if !neg && decide (9223372036854775808 ≤ un) then (9223372036854775807, some .ErrRange)
        else if neg && decide (9223372036854775808 < un) then (-9223372036854775808, some .ErrRange)
        else (if neg then -(un : Int) else (un : Int), none)

/-- Model of `fmt.Sprintf("%d", t)` for an unsigned `t`. -/
def fmtUint (t : Nat) : Str := Nat.toDigits 10 t

/-- Model of `fmt.Sprintf("%d", t)` for an `int`. -/
def fmtInt (t : Int) : Str :=
  if t < 0 then '-' :: Nat.toDigits 10 t.natAbs else Nat.toDigits 10 t.toNat

/-! ## Slicing -/

/-- Go `s[:n]`; panics (`none`) when `n` exceeds the length. -/
def sliceTo (s : Str) (n : Nat) : Option Str := if n ≤ s.length then some (s.take n) else none

/-- Go `s[n:]`; panics (`none`) when `n` exceeds the length. -/
def sliceFrom (s : Str) (n : Nat) : Option Str := if n ≤ s.length then some (s.drop n) else none

/-! ## Patterns and constants -/

/-- One or more decimal digits at the head of `s` (the regular expression
`[0-9]+`, which is greedy); returns what follows them. -/
def digits1 (s : Str) : Option Str :=
  match s with
  | c :: _ => if c.isDigit then some (s.dropWhile Char.isDigit) else none
  | [] => none

/-- Model of `regexpID.MatchString`, pattern `^[0-9]+$`. -/
def regexpID (line : Str) : Bool := !line.isEmpty && line.all Char.isDigit

/-- Model of `regexpTime.MatchString`, pattern `^([0-9]+):([0-9]+):([0-9]+).*`:
the line starts with digits, a colon, digits, a colon and a digit. -/
def regexpTime (line : Str) : Bool :=
  match digits1 line with
  | some (':' :: r1) =>
    match digits1 r1 with
    | some (':' :: r2) => (digits1 r2).isSome
    | _ => false
  | _ => false

def timeFormat : Str := "HH:MM:SS,MIL".toList
def timeSep : Str := " --> ".toList
def timePreffMin : Str := "HH:".toList
def timePreffSec : Str := "HH:MM:".toList
def timePreffMil : Str := "HH:MM:SS,".toList

/-! ## Timestamp codec -/

structure srtTime where
  start : Int
  end_ : Int
  extra : Str
  deriving DecidableEq, Repr

/-- The `if v, err := strconv.Atoi(..); err != nil { panic(err) }` idiom. -/
def atoiOrPanic (s : Str) : Option Int :=
  match Atoi s with
  | (v, none) => some v
  | (_, some _) => none

def timeStr2Milli (time : Str) : Option Int := do
  let millis : Int := 0
  let hours ← (sliceTo time 2).bind atoiOrPanic
  let millis := goAdd millis (goMul (goMul (goMul hours 60) 60) 1000)
  let minutes ← ((sliceFrom time timePreffMin.length).bind (sliceTo · 2)).bind atoiOrPanic
  let millis := goAdd millis (goMul (goMul minutes 60) 1000)
  let seconds ← ((sliceFrom time timePreffSec.length).bind (sliceTo · 2)).bind atoiOrPanic
  let millis := goAdd millis (goMul seconds 1000)
  let milli ← (sliceFrom time timePreffMil.length).bind atoiOrPanic
  let millis := goAdd millis milli
  pure millis

def time2Str (t : Nat) : Str :=
  if t < 10 then '0' :: fmtUint t else fmtUint t

def millis2Str (t : Int) : Str :=
  if t < 10 then '0' :: '0' :: fmtInt t
  else if t < 100 then '0' :: fmtInt t
  else fmtInt t

def timeMilli2Str (millis : Int) : Str :=
  let sec := toUint (millis.tdiv 1000)
  let min := sec / 60
  let sec := sec % 60
  let hrs := min / 60
  let min := min % 60
  time2Str hrs ++ ':' :: time2Str min ++ ':' :: time2Str sec ++ ',' :: millis2Str (millis.tmod 1000)

def srtTime.String (t : srtTime) : Str :=
  timeMilli2Str t.start ++ timeSep ++ timeMilli2Str t.end_ ++ t.extra

def srtTime.Offset (t : srtTime) (offset : Int) : srtTime :=
  { t with start := goAdd t.start offset, end_ := goAdd t.end_ offset }

def parseID (line : Str) : Int × Option NumError := Atoi line

def parseTime (line : Str) : Option srtTime := do
  let init ← sliceTo line timeFormat.length
  let finish ← (sliceFrom line (timeFormat.length + timeSep.length)).bind (sliceTo · timeFormat.length)
  let extra ← sliceFrom line (2 * timeFormat.length + timeSep.length)
  let start ← timeStr2Milli init
  let end_ ← timeStr2Milli finish
  pure { start := start, end_ := end_, extra := extra }

/-! ## Files and `bufio` -/

/-- An input file: `none` when `os.Open` fails, otherwise its bytes. -/
abbrev File := Option Str

/-- The error values `Concat` can return: the `*os.PathError` of a failed
`os.Create` or `os.Open`. -/
inductive IOError where
  | PathError
  deriving DecidableEq, Repr

/-- The size of the buffer of `bufio.NewReader` (`defaultBufSize`). -/
def bufSize : Nat := 4096

/-- Drops one trailing carriage return (the `"\r\n"` case of `ReadLine`). -/
def dropCR (line : Str) : Str :=
  if line.getLast? = some '\r' then line.dropLast else line

/-- Model of one call of `bufio.Reader.ReadLine` on the unread bytes `r`; the
`isPrefix` result, which the program discards, is left out.  `none` is the
result `(nil, io.EOF)`; otherwise the bytes returned and the bytes left unread
(the error is `nil`).

* `ReadSlice` finds a newline among the first `bufSize` unread bytes: the line
  up to it is returned without its `"\n"` or `"\r\n"`.
* It finds none and the buffer is full (`ErrBufferFull`): the `bufSize`
  buffered bytes are returned; when the last of them is a carriage return it
  is put back and dropped from the bytes returned.
* It finds none and the file ends: the unterminated bytes are returned as they
  are. -/
def ReadLine (r : Str) : Option (Str × Str) :=
  match r with
  | [] => none
  | _ :: _ =>
    if (r.take bufSize).any (· == '\n') then
      some (dropCR (r.takeWhile (· != '\n')), (r.dropWhile (· != '\n')).tail)
    else if bufSize ≤ r.length then
      if (r.take bufSize).getLast? = some '\r' then
        some ((r.take bufSize).dropLast, r.drop (bufSize - 1))
      else some (r.take bufSize, r.drop bufSize)
    else some (r, [])

/-- The lines that successive `ReadLine` calls return before `io.EOF`, for at
most `fuel` calls. -/
def readAll : Nat → Str → List Str
  | 0, _ => []
  | fuel + 1, r =>
    match ReadLine r with
    | none => []
    | some (line, rest) => line :: readAll fuel rest

/-- The byte strings that the calls of `ReadLine` deliver for a file, in order:
its lines, a line that does not fit the buffer in pieces.  Every successful
`ReadLine` consumes a byte, so `content.length` calls reach `io.EOF`
(`readAll_fuel`). -/
def readLines (content : Str) : List Str := readAll content.length content

/-! ## File scanners

Each loop runs over the lines the reader still has to deliver; the empty list
is the call of `ReadLine` that returns `(nil, io.EOF)`. -/

/-- The loop of `copySRTLines`: the line is written before the read error is
checked. -/
def copyLoop (w : Str) : List Str → Str
  | [] => w ++ ([] ++ ['\n'])
  | line :: rest => copyLoop (w ++ (line ++ ['\n'])) rest

/-- Returns the writer's content and the error. -/
def copySRTLines (w : Str) (path : File) : Str × Option IOError :=
  match path with
  | none => (w, some .PathError)
  | some content => (copyLoop w (readLines content), none)

/-- One iteration of the loop of `getSRTlimits` on the line read, up to the
error check. -/
def limitsStep (st : srtTime × Int) (line : Str) : Option (srtTime × Int) :=
  let lastID := if regexpID line then (parseID line).1 else st.2
  if regexpTime line then
    (parseTime line).map (fun t => (t, lastID))
  else some (st.1, lastID)

/-- The loop of `getSRTlimits`; at `io.EOF` the body still runs on the empty
line before the `break`. -/
def limitsLoop (st : srtTime × Int) : List Str → Option (srtTime × Int)
  | [] => limitsStep st []
  | line :: rest => (limitsStep st line).bind (fun st1 => limitsLoop st1 rest)

/-- Returns `(lasTime.end, lastID, err)`, or panics. -/
def getSRTlimits (srt : File) : Option (Int × Int × Option IOError) :=
  match srt with
  | none => some (0, 0, some .PathError)
  | some content =>
    (limitsLoop ({ start := 0, end_ := 0, extra := [] }, 0) (readLines content)).map
      (fun st => (st.1.end_, st.2, none))

/-- The `switch` of `addSRToffset`: the bytes written for a line read. -/
def rewriteLine (timeOff idOff : Int) (line : Str) : Option Str :=
  if regexpID line then
    some (fmtInt (goAdd (parseID line).1 idOff))
  else if regexpTime line then
    (parseTime line).map (fun time => (time.Offset timeOff).String)
  else some line

/-- The loop of `addSRToffset`: the read error is checked first. -/
def offsetLoop (timeOff idOff : Int) (w : Str) : List Str → Option Str
  | [] => some w
  | line :: rest =>
    (rewriteLine timeOff idOff line).bind (fun l => offsetLoop timeOff idOff (w ++ (l ++ ['\n'])) rest)

/-- Returns the writer's content and the error, or panics. -/
def addSRToffset (w : Str) (srt : File) (timeOff idOff : Int) : Option (Str × Option IOError) :=
  match srt with
  | none => some (w, some .PathError)
  | some content => (offsetLoop timeOff idOff w (readLines content)).map (fun w1 => (w1, none))

/-! ## Concatenation driver -/

/-- The state of the loop of `Concat`: the bytes written, the two offsets, and
the log of the `(timeOff, idOff)` arguments of the calls of `addSRToffset`
made so far (a ghost field). -/
structure Driver where
  w : Str
  timeOff : Int
  idOff : Int
  calls : List (Int × Int)
  deriving DecidableEq, Repr

/-- What a run of `Concat` leaves: the error returned, the content of the output
file after the deferred flush, and the log of the `addSRToffset` calls. -/
structure Result where
  err : Option IOError
  out : Str
  calls : List (Int × Int)
  deriving DecidableEq, Repr

/-- The `for index, file := range files` loop of `Concat`, over the entries
of `files` from `index` on.  The results of `copySRTLines` and `addSRToffset`
are discarded, the error of `getSRTlimits` is returned. -/
def concatLoop (files : List File) (st : Driver) (index : Nat) : List File → Option Result
  | [] => some { err := none, out := st.w, calls := st.calls }
  | file :: rest =>
    if index = 0 then
      concatLoop files { st with w := (copySRTLines st.w file).1 } (index + 1) rest
    else
      match files.get? (index - 1) with
      | none => none
      | some prev =>
        match getSRTlimits prev with
        | none => none
        | some (_, _, some err) => some { err := some err, out := st.w, calls := st.calls }
        | some (t, id, none) =>
          let timeOff := goAdd st.timeOff t
          let idOff := goAdd st.idOff id
          match addSRToffset st.w file timeOff idOff with
          | none => none
          | some (w1, _) =>
            concatLoop files
              { w := w1, timeOff := timeOff, idOff := idOff, calls := st.calls ++ [(timeOff, idOff)] }
              (index + 1) rest

/-- Model of `Concat(output, files...)`: `created` tells whether `os.Create(output)`
succeeds, `files` are the input files in argument order.  `none` is a panic. -/
def Concat (created : Bool) (files : List File) : Option Result :=
  if !created then some { err := some .PathError, out := [], calls := [] }
  else if files.length < 2 then some { err := none, out := [], calls := [] }
  else concatLoop files { w := [], timeOff := 0, idOff := 0, calls := [] } 0 files

/-! ## Vocabulary of the specification

The notions the claims are stated with.  They are not part of the program. -/

/-- Each line followed by a single newline character. -/
def unlines (ls : List Str) : Str := ls.flatMap (fun l => l ++ ['\n'])

/-- The value of a string of decimal digits. -/
def decVal (l : Str) : Nat := l.foldl (fun n c => n * 10 + (c.toNat - 48)) 0

/-- The pieces of a text between its newline characters, in order; the last
piece is what follows the last newline (empty when the text ends with one). -/
def pieces : Str → List Str
  | [] => [[]]
  | c :: rest =>
    if c = '\n' then [] :: pieces rest
    else
      match pieces rest with
      | [] => [[c]]
      | p :: ps => (c :: p) :: ps

/-- A piece without the carriage return that precedes its newline. -/
def stripCR (l : Str) : Str :=
  match l.getLast? with
  | some '\r' => l.dropLast
  | _ => l

/-- The lines of a file: every piece that a newline ends, without the carriage
return of a `"\r\n"` line end, and the bytes after the last newline, when
there are any, as the final line. -/
def textLines (content : Str) : List Str :=
  (pieces content).dropLast.map stripCR ++
    (match (pieces content).getLast? with
     | some (c :: p) => [c :: p]
     | _ => [])

/-- Every line of the file is shorter than 4095 bytes, so that with a line
end of one or two bytes it fits the buffer of the reader. -/
def ShortLines (content : Str) : Prop := ∀ l ∈ textLines content, l.length < 4095

instance (content : Str) : Decidable (ShortLines content) := by
  unfold ShortLines; infer_instance

/-- The last line, in file order, of a given kind. -/
def lastWhere (p : Str → Bool) (ls : List Str) : Option Str := (ls.filter p).getLast?

/-- The value `f l` of the last line `l` with `p l`, `d` when there is none. -/
def lastOr {α : Type} (p : Str → Bool) (f : Str → α) (d : α) (ls : List Str) : α :=
  ((lastWhere p ls).map f).getD d

/-- The end-millisecond value of the last time-range line, 0 if there is none. -/
def lastEndMillis (ls : List Str) : Int :=
  match lastWhere regexpTime ls with
  | none => 0
  | some l => ((parseTime l).map (fun t => t.end_)).getD 0

/-- The value of the last sequence-number line, 0 if there is none. -/
def lastSeqNumber (ls : List Str) : Int :=
  match lastWhere regexpID ls with
  | none => 0
  | some l => (decVal l : Int)

/-- The line offset-rewrite mode is specified to write for a line read: the
decimal text of the value plus `idOff` for a sequence-number line, the rendering
of the time range with start and end increased by `timeOff` and the trailing
text unchanged for a time-range line, the line itself otherwise.  The sums are
sums of integers. -/
def rewritten (timeOff idOff : Int) (l : Str) : Str :=
  if regexpID l then fmtInt ((decVal l : Int) + idOff)
  else if regexpTime l then
    match parseTime l with
    | some t =>
      timeMilli2Str (t.start + timeOff) ++ timeSep ++ timeMilli2Str (t.end_ + timeOff) ++ t.extra
    | none => l
  else l

/-- The shifted values of a line fit an `int`: the value plus `idOff` for a
sequence-number line, start and end plus `timeOff` for a time-range line. -/
def ShiftFits (timeOff idOff : Int) (l : Str) : Prop :=
  (regexpID l = true → InIntRange ((decVal l : Int) + idOff)) ∧
    (regexpTime l = true →
      ∀ t ∈ parseTime l, InIntRange (t.start + timeOff) ∧ InIntRange (t.end_ + timeOff))

instance (timeOff idOff : Int) (l : Str) : Decidable (ShiftFits timeOff idOff l) := by
  unfold ShiftFits; infer_instance

/-- Parsing does not fail on a list of lines: every time-range line is parsed
without a panic and every sequence-number line has a value that fits an `int`
(`parseID` returns no error). -/
def ParsesOK (ls : List Str) : Prop :=
  ∀ l ∈ ls, (regexpTime l = true → (parseTime l).isSome = true) ∧
    (regexpID l = true → (decVal l : Int) ≤ 9223372036854775807)

/-- The limit-scan result `(lastEndMillis, lastID)` of a file that can be opened,
`(0, 0)` when the scan panics. -/
def scan (content : Str) : Int × Int :=
  match getSRTlimits (some content) with
  | some r => (r.1, r.2.1)
  | none => (0, 0)

/-- The component-wise sum of the limit-scan results of the files at the
positions below `i`, as a pair of Go `int`s. -/
def offsetAt (contents : List Str) (i : Nat) : Int × Int :=
  (wrapInt ((contents.take i).map (fun c => (scan c).1)).sum,
   wrapInt ((contents.take i).map (fun c => (scan c).2)).sum)

/-- A well-formed timestamp `HH:MM:SS,mmm`: twelve bytes, decimal digits in the
eight numeric positions. -/
def isTimestamp (s : Str) : Bool :=
  match s with
  | [h1, h2, x, m1, m2, y, s1, s2, z, f1, f2, f3] =>
    h1.isDigit && h2.isDigit && x == ':' && m1.isDigit && m2.isDigit && y == ':'
      && s1.isDigit && s2.isDigit && z == ',' && f1.isDigit && f2.isDigit && f3.isDigit
  | _ => false

/-- A well-formed time-range line `HH:MM:SS,mmm --> HH:MM:SS,mmm` followed by
any trailing text. -/
def isTimeRange (l : Str) : Bool :=
  isTimestamp (l.take 12) && ((l.drop 12).take 5 == timeSep) && isTimestamp ((l.drop 17).take 12)

/-- A well-formed file: every line the time-range pattern accepts is a
well-formed time-range line, and every sequence-number line fits an `int`. -/
def WellFormed (ls : List Str) : Prop :=
  ∀ l ∈ ls, (regexpTime l = true → isTimeRange l = true) ∧
    (regexpID l = true → (decVal l : Int) ≤ 9223372036854775807)

instance (ls : List Str) : Decidable (ParsesOK ls) := by unfold ParsesOK; infer_instance

instance (ls : List Str) : Decidable (WellFormed ls) := by unfold WellFormed; infer_instance

/-- The eight numeric fields of the two timestamp substrings of a line (bytes
0-11 and bytes 17-28): hour, minute, second (2 bytes each) and millisecond
(3 bytes) of each. -/
def numericFields (line : Str) : List Str :=
  let t1 := line.take 12
  let t2 := (line.drop 17).take 12
  [t1.take 2, (t1.drop 3).take 2, (t1.drop 6).take 2, t1.drop 9,
   t2.take 2, (t2.drop 3).take 2, (t2.drop 6).take 2, t2.drop 9]

/-- Left-padding with zeros to at least `w` characters. -/
def padLeft (w : Nat) (s : Str) : Str := List.replicate (w - s.length) '0' ++ s

/-- The decimal numeral of `n`, zero-padded to at least 2 digits. -/
def pad2 (n : Nat) : Str := padLeft 2 (Nat.toDigits 10 n)

/-- The decimal numeral of `n`, zero-padded to at least 3 digits. -/
def pad3 (n : Nat) : Str := padLeft 3 (Nat.toDigits 10 n)

/-- The numerals `a + 1, a + 2, ..., a + n` in order. -/
def numerals (a n : Nat) : List Str := (List.range n).map (fun i => Nat.toDigits 10 (a + i + 1))

/-- The number of all-digit lines of a file. -/
def seqCount (content : Str) : Nat := ((textLines content).filter regexpID).length

/-- The all-digit lines of the file are, in order, exactly the numerals
1, 2, ..., n for some n >= 0 (which is then their number). -/
def Numbered (content : Str) : Prop :=
  (textLines content).filter regexpID = numerals 0 (seqCount content)

instance (content : Str) : Decidable (Numbered content) := by unfold Numbered; infer_instance

/-! ## The output of a run

The arguments `Concat` passes and the bytes it writes when parsing does not
fail, by position in the list of input files. -/

/-- The bytes `rewriteLine` produces for a line on which parsing does not fail
(`rewriteLine_eq`); the sums are those of the program, sums of Go `int`s. -/
def writtenLine (timeOff idOff : Int) (l : Str) : Str :=
  if regexpID l then fmtInt (goAdd (decVal l) idOff)
  else if regexpTime l then
    match parseTime l with
    | some t => (t.Offset timeOff).String
    | none => l
  else l

/-- The offsets for the files of `rest`, the first of which is at position `i`. -/
def callsFrom (contents : List Str) (i : Nat) : List Str → List (Int × Int)
  | [] => []
  | _ :: rest => offsetAt contents i :: callsFrom contents (i + 1) rest

/-- The bytes written for the files of `rest`, the first of which is at
position `i`, when parsing does not fail. -/
def outFrom (contents : List Str) (i : Nat) : List Str → Str
  | [] => []
  | c :: rest =>
    unlines ((readLines c).map (writtenLine (offsetAt contents i).1 (offsetAt contents i).2))
      ++ outFrom contents (i + 1) rest

/-- The lines written for the files of `rest`, the first of which is at
position `i` (`outFrom` is each of them followed by a newline). -/
def linesFrom (contents : List Str) (i : Nat) : List Str → List Str
  | [] => []
  | c :: rest =>
    (readLines c).map (writtenLine (offsetAt contents i).1 (offsetAt contents i).2)
      ++ linesFrom contents (i + 1) rest

/-- File A of the two-file example of the specification. -/
def sampleA : Str := "1\n00:00:01,000 --> 00:00:02,000\nHello\n".toList

/-- File B of the two-file example of the specification. -/
def sampleB : Str := "1\n00:00:00,500 --> 00:00:01,500\nWorld\n".toList

/-- A file with CRLF line ends, trailing text after the time range and no
newline after the last line. -/
def sampleC : Str := "7\r\n00:00:03,000 --> 00:00:04,250 X1:40\r\n12 monkeys".toList

/-- A file whose time-range line has a signed hour field in its second timestamp. -/
def sampleNeg : Str := "1\n00:00:00,000 --> -1:00:00,000\nBack\n".toList

/-- A file with the two sequence numbers 1 and 2 and nothing else. -/
def samplePair : Str := "1\n2\n".toList

/-- A file whose only sequence number is 2^63 - 2. -/
def sampleBig : Str := "9223372036854775806\n".toList

/-- A file with the one sequence number 1 and nothing else. -/
def sampleOne : Str := "1\n".toList

/-- A file whose final line, the bytes `2` and carriage return, has no newline. -/
def sampleCR : Str := "1\n2\r".toList

/-- A line of 4096 bytes, the size of the buffer of the reader. -/
def longLine : Str := List.replicate 4096 'x'

/-- A file of one line of 4099 bytes: 4096 times `x`, then `123`. -/
def sampleSplit : Str := longLine ++ "123\n".toList

/-- A file of two lines: the sequence number 4, and the line of `sampleSplit`. -/
def sampleSplitID : Str := "4\n".toList ++ sampleSplit

/-- A file of two lines: the sequence number 1, and the line of `sampleSplit`. -/
def sampleSplitOne : Str := "1\n".toList ++ sampleSplit

/-- A file of one line: 4096 times `x` followed by the text of a time range
with a signed hour field. -/
def sampleSplitNeg : Str := longLine ++ "00:00:00,000 --> -1:00:00,000\n".toList

/-! ## The copy loop -/

theorem copyLoop_eq (w : Str) (ls : List Str) :
    copyLoop w ls = w ++ unlines ls ++ ['\n'] := by
  induction ls generalizing w with
  | nil => simp [copyLoop, unlines]
  | cons l ls ih => simp [copyLoop, ih, unlines]

/-! ## Go `int` arithmetic -/

theorem wrapInt_of_inRange {x : Int} (h : InIntRange x) : wrapInt x = x := by
  unfold InIntRange at h
  unfold wrapInt
  omega

theorem wrapInt_inRange (x : Int) : InIntRange (wrapInt x) := by
  unfold InIntRange wrapInt
  omega

theorem wrapInt_add_left (a b : Int) : wrapInt (wrapInt a + b) = wrapInt (a + b) := by
  unfold wrapInt
  omega

theorem wrapInt_add_right (a b : Int) : wrapInt (a + wrapInt b) = wrapInt (a + b) := by
  unfold wrapInt
  omega

/-! ## The reader -/

theorem ReadLine_nil : ReadLine [] = none := rfl

theorem length_dropWhile_le (p : Char → Bool) (r : Str) : (r.dropWhile p).length ≤ r.length := by
  induction r with
  | nil => simp
  | cons c r ih =>
    simp only [List.dropWhile_cons]
    split
    · simp only [List.length_cons]; omega
    · simp

/-- Every successful call consumes at least one byte. -/
theorem ReadLine_length {r line rest : Str} (h : ReadLine r = some (line, rest)) :
    rest.length < r.length := by
  cases r with
  | nil => simp [ReadLine] at h
  | cons c cs =>
    have hle := length_dropWhile_le (· != '\n') (c :: cs)
    simp only [ReadLine] at h
    split at h
    · simp only [Option.some.injEq, Prod.mk.injEq] at h
      rw [← h.2, List.length_tail]
      simp only [List.length_cons] at hle ⊢
      omega
    · split at h
      · rename_i hfull
        have hb : bufSize = 4096 := rfl
        split at h
        · simp only [Option.some.injEq, Prod.mk.injEq] at h
          rw [← h.2, List.length_drop]
          omega
        · simp only [Option.some.injEq, Prod.mk.injEq] at h
          rw [← h.2, List.length_drop]
          omega
      · simp only [Option.some.injEq, Prod.mk.injEq] at h
        rw [← h.2]; simp

theorem readAll_fuel_irrel (n m : Nat) (r : Str) (hn : r.length ≤ n) (hm : r.length ≤ m) :
    readAll n r = readAll m r := by
  induction n generalizing m r with
  | zero =>
    have hr : r = [] := List.length_eq_zero.mp (Nat.le_zero.mp hn)
    subst hr
    cases m <;> simp [readAll, ReadLine]
  | succ n ih =>
    cases m with
    | zero =>
      have hr : r = [] := List.length_eq_zero.mp (Nat.le_zero.mp hm)
      subst hr
      simp [readAll, ReadLine]
    | succ m =>
      simp only [readAll]
      cases hrl : ReadLine r with
      | none => rfl
      | some p =>
        obtain ⟨line, rest⟩ := p
        have hlt := ReadLine_length hrl
        simp only
        rw [ih m rest (by omega) (by omega)]

/-- Enough fuel: any number of calls from `r.length` on reads the same lines. -/
theorem readAll_fuel (n : Nat) (r : Str) (hn : r.length ≤ n) : readAll n r = readLines r :=
  readAll_fuel_irrel n r.length r hn (Nat.le_refl _)

theorem readLines_nil : readLines [] = [] := rfl

/-- The lines delivered are the result of the first call followed by the lines
delivered for the bytes it leaves unread. -/
theorem readLines_cons {r line rest : Str} (h : ReadLine r = some (line, rest)) :
    readLines r = line :: readLines rest := by
  have hlt := ReadLine_length h
  cases hlen : r.length with
  | zero => omega
  | succ n =>
    unfold readLines
    rw [hlen]
    simp only [readAll, h]
    rw [readAll_fuel n rest (by omega)]
    rfl

theorem any_newline_false {l : Str} (hl : '\n' ∉ l) : l.any (· == '\n') = false := by
  rw [Bool.eq_false_iff]
  intro h
  rw [List.any_eq_true] at h
  obtain ⟨x, hx, hxe⟩ := h
  have : x = '\n' := by simpa using hxe
  rw [this] at hx
  exact hl hx

/-- A line that, with its newline, fits the buffer is delivered whole. -/
theorem ReadLine_terminated (l rest : Str) (hl : '\n' ∉ l) (hlen : l.length < bufSize) :
    ReadLine (l ++ '\n' :: rest) = some (dropCR l, rest) := by
  have hp : ∀ a ∈ l, (a != '\n') = true := by
    intro a ha
    simp only [bne_iff_ne, ne_eq]
    intro h; subst h; exact hl ha
  have hd : (l ++ '\n' :: rest).dropWhile (· != '\n') = '\n' :: rest := by
    rw [List.dropWhile_append_of_pos hp]; simp
  have ht : (l ++ '\n' :: rest).takeWhile (· != '\n') = l := by
    rw [List.takeWhile_append_of_pos hp]; simp
  have hwin : ((l ++ '\n' :: rest).take bufSize).any (· == '\n') = true := by
    rw [List.any_eq_true]
    refine ⟨'\n', ?_, by simp⟩
    rw [List.take_append_eq_append_take]
    apply List.mem_append_right
    obtain ⟨k, hk⟩ : ∃ k, bufSize - l.length = k + 1 := ⟨bufSize - l.length - 1, by omega⟩
    rw [hk, List.take_succ_cons]
    exact List.mem_cons_self _ _
  cases hx : l ++ '\n' :: rest with
  | nil => simp at hx
  | cons c cs =>
    rw [hx] at hd ht hwin
    simp only [ReadLine, hwin, if_true, hd, ht, List.tail_cons]

/-- Unterminated bytes at the end of the file that fit the buffer are delivered
as they are. -/
theorem ReadLine_unterminated (l : Str) (hne : l ≠ []) (hl : '\n' ∉ l) (hlen : l.length < bufSize) :
    ReadLine l = some (l, []) := by
  have htake : l.take bufSize = l := List.take_of_length_le (by omega)
  have hany := any_newline_false hl
  cases hx : l with
  | nil => exact absurd hx hne
  | cons c cs =>
    rw [hx] at htake hany hlen
    simp only [ReadLine, htake, hany, Bool.false_eq_true, if_false]
    rw [if_neg (by omega)]

/-- Bytes without a newline that fill the buffer are delivered on their own,
whatever follows them. -/
theorem ReadLine_fragment (pre rest : Str) (hlen : pre.length = bufSize) (hl : '\n' ∉ pre)
    (hcr : pre.getLast? ≠ some '\r') :
    ReadLine (pre ++ rest) = some (pre, rest) := by
  have htake : (pre ++ rest).take bufSize = pre := by
    rw [← hlen]; exact List.take_left' rfl
  have hdrop : (pre ++ rest).drop bufSize = rest := by
    rw [← hlen]; exact List.drop_left' rfl
  have hany := any_newline_false hl
  have hfull : bufSize ≤ (pre ++ rest).length := by
    simp only [List.length_append]; omega
  cases hx : pre ++ rest with
  | nil =>
    have := congrArg List.length hx
    simp only [List.length_append, List.length_nil] at this
    have hb : bufSize = 4096 := rfl
    omega
  | cons c cs =>
    rw [hx] at htake hdrop hfull
    simp only [ReadLine, htake, hany, Bool.false_eq_true, if_false, hfull, if_true, hcr, hdrop]

theorem readLines_terminated (l rest : Str) (hl : '\n' ∉ l) (hlen : l.length < bufSize) :
    readLines (l ++ '\n' :: rest) = dropCR l :: readLines rest :=
  readLines_cons (ReadLine_terminated l rest hl hlen)

theorem readLines_unterminated (l : Str) (hne : l ≠ []) (hl : '\n' ∉ l)
    (hlen : l.length < bufSize) : readLines l = [l] := by
  rw [readLines_cons (ReadLine_unterminated l hne hl hlen), readLines_nil]

theorem readLines_fragment (pre rest : Str) (hlen : pre.length = bufSize) (hl : '\n' ∉ pre)
    (hcr : pre.getLast? ≠ some '\r') :
    readLines (pre ++ rest) = pre :: readLines rest :=
  readLines_cons (ReadLine_fragment pre rest hlen hl hcr)

theorem dropCR_of_no_cr {l : Str} (h : l.getLast? ≠ some '\r') : dropCR l = l := by
  simp [dropCR, h]

/-! ## The lines of a file -/

theorem pieces_ne_nil (r : Str) : pieces r ≠ [] := by
  cases r with
  | nil => simp [pieces]
  | cons c r =>
    simp only [pieces]
    split
    · simp
    · split <;> simp

theorem pieces_terminated (l rest : Str) (hl : '\n' ∉ l) :
    pieces (l ++ '\n' :: rest) = l :: pieces rest := by
  induction l with
  | nil => simp [pieces]
  | cons c l ih =>
    have hc : c ≠ '\n' := fun h => hl (by simp [h])
    have hl1 : '\n' ∉ l := fun h => hl (List.mem_cons_of_mem _ h)
    show pieces (c :: (l ++ '\n' :: rest)) = (c :: l) :: pieces rest
    rw [pieces, if_neg hc, ih hl1]

theorem pieces_unterminated (l : Str) (hl : '\n' ∉ l) : pieces l = [l] := by
  induction l with
  | nil => rfl
  | cons c l ih =>
    have hc : c ≠ '\n' := fun h => hl (by simp [h])
    have hl1 : '\n' ∉ l := fun h => hl (List.mem_cons_of_mem _ h)
    rw [pieces, if_neg hc, ih hl1]

theorem stripCR_eq_dropCR (l : Str) : stripCR l = dropCR l := by
  unfold stripCR dropCR
  split
  · rename_i h; simp [h]
  · rename_i h
    rw [if_neg]
    intro hc
    exact h hc

theorem textLines_nil : textLines [] = [] := rfl

theorem textLines_terminated (l rest : Str) (hl : '\n' ∉ l) :
    textLines (l ++ '\n' :: rest) = stripCR l :: textLines rest := by
  obtain ⟨p, ps, hp⟩ := List.exists_cons_of_ne_nil (pieces_ne_nil rest)
  simp only [textLines, pieces_terminated l rest hl, hp, List.dropLast_cons₂, List.map_cons,
    List.getLast?_cons_cons, List.cons_append]

theorem textLines_unterminated (l : Str) (hne : l ≠ []) (hl : '\n' ∉ l) : textLines l = [l] := by
  cases l with
  | nil => exact absurd rfl hne
  | cons c l =>
    simp [textLines, pieces_unterminated (c :: l) hl]

/-- A text has no newline or it starts with a line that a newline ends. -/
theorem split_at_newline (r : Str) :
    '\n' ∉ r ∨ ∃ l rest, r = l ++ '\n' :: rest ∧ '\n' ∉ l := by
  induction r with
  | nil => left; simp
  | cons c r ih =>
    by_cases hc : c = '\n'
    · right; exact ⟨[], r, by simp [hc], by simp⟩
    · rcases ih with h | ⟨l, rest, h1, h2⟩
      · left
        intro hm
        rcases List.mem_cons.mp hm with h3 | h3
        · exact hc h3.symm
        · exact h h3
      · right
        refine ⟨c :: l, rest, by simp [h1], ?_⟩
        intro hm
        rcases List.mem_cons.mp hm with h3 | h3
        · exact hc h3.symm
        · exact h2 h3

theorem length_le_dropCR (l : Str) : l.length ≤ (dropCR l).length + 1 := by
  unfold dropCR
  split
  · simp only [List.length_dropLast]; omega
  · omega

/-- A file whose lines are shorter than 4095 bytes is delivered line by line:
the reader returns exactly the lines of the file. -/
theorem readLines_eq_textLines (content : Str) (h : ShortLines content) :
    readLines content = textLines content := by
  obtain ⟨n, hn⟩ : ∃ n, content.length = n := ⟨_, rfl⟩
  induction n using Nat.strong_induction_on generalizing content with
  | _ n ih =>
    have hb : bufSize = 4096 := rfl
    rcases split_at_newline content with hno | ⟨l, rest, hsplit, hl⟩
    · by_cases hne : content = []
      · subst hne; rfl
      · have ht := textLines_unterminated content hne hno
        have hlen : content.length < 4095 := h content (by rw [ht]; simp)
        rw [ht, readLines_unterminated content hne hno (by omega)]
    · subst hsplit
      have ht := textLines_terminated l rest hl
      have hlen : (dropCR l).length < 4095 := by
        have := h (stripCR l) (by rw [ht]; simp)
        rwa [stripCR_eq_dropCR] at this
      have hl2 := length_le_dropCR l
      have hrest : ShortLines rest := by
        intro x hx
        exact h x (by rw [ht]; exact List.mem_cons_of_mem _ hx)
      have hlt : rest.length < n := by
        rw [← hn]; simp only [List.length_append, List.length_cons]; omega
      rw [ht, readLines_terminated l rest hl (by omega), ih rest.length hlt rest hrest rfl,
        stripCR_eq_dropCR]

theorem stripCR_of_no_cr {l : Str} (h : l.getLast? ≠ some '\r') : stripCR l = l := by
  rw [stripCR_eq_dropCR, dropCR_of_no_cr h]

/-- Lines without a newline and without a trailing carriage return, each
followed by a newline, form a text whose lines they are. -/
theorem textLines_unlines (ls : List Str) (h : ∀ l ∈ ls, '\n' ∉ l ∧ l.getLast? ≠ some '\r') :
    textLines (unlines ls) = ls := by
  induction ls with
  | nil => rfl
  | cons l ls ih =>
    have hl := h l (List.mem_cons_self _ _)
    have hrest : ∀ l1 ∈ ls, '\n' ∉ l1 ∧ l1.getLast? ≠ some '\r' :=
      fun l1 h1 => h l1 (List.mem_cons_of_mem _ h1)
    have hshape : unlines (l :: ls) = l ++ '\n' :: unlines ls := by
      simp [unlines]
    rw [hshape, textLines_terminated l _ hl.1, stripCR_of_no_cr hl.2, ih hrest]

/-! ## `Atoi` on strings of digits -/

theorem foldl_digits_ge (l : Str) (n : Nat) :
    n ≤ l.foldl (fun n c => n * 10 + (c.toNat - 48)) n := by
  induction l generalizing n with
  | nil => simp
  | cons c cs ih =>
    simp only [List.foldl_cons]
    have := ih (n * 10 + (c.toNat - 48))
    omega

theorem parseUintLoop_digits (l : Str) (n : Nat) (h : l.all Char.isDigit = true)
    (hn : n < 18446744073709551616) :
    parseUintLoop n l =
      if l.foldl (fun n c => n * 10 + (c.toNat - 48)) n < 18446744073709551616
      then .ok (l.foldl (fun n c => n * 10 + (c.toNat - 48)) n) else .error .ErrRange := by
  induction l generalizing n with
  | nil => simp [parseUintLoop, hn]
  | cons c cs ih =>
    simp only [List.all_cons, Bool.and_eq_true] at h
    simp only [parseUintLoop, h.1, if_true, List.foldl_cons]
    by_cases hbig : 18446744073709551616 ≤ n * 10 + (c.toNat - 48)
    · have := foldl_digits_ge cs (n * 10 + (c.toNat - 48))
      simp only [hbig, if_true]
      rw [if_neg (by omega)]
    · simp only [hbig, if_false]
      exact ih _ h.2 (by omega)

theorem isDigit_ne_plus {c : Char} (h : c.isDigit = true) : (c == '+') = false := by
  by_cases h1 : c = '+'
  · subst h1; exact absurd h (by decide)
  · simp [h1]

theorem isDigit_ne_minus {c : Char} (h : c.isDigit = true) : (c == '-') = false := by
  by_cases h2 : c = '-'
  · subst h2; exact absurd h (by decide)
  · simp [h2]

/-- On a line of digits `Atoi` returns the decimal value when it fits an `int`
and otherwise the largest `int` with a range error. -/
theorem Atoi_digits (l : Str) (h : regexpID l = true) :
    Atoi l = if (decVal l : Int) ≤ 9223372036854775807 then ((decVal l : Int), none)
             else (9223372036854775807, some .ErrRange) := by
  cases l with
  | nil => simp [regexpID] at h
  | cons c cs =>
    have hall : (c :: cs).all Char.isDigit = true := by
      simp only [regexpID, Bool.and_eq_true] at h
      exact h.2
    have hc : c.isDigit = true := by
      simp only [List.all_cons, Bool.and_eq_true] at hall
      exact hall.1
    have hpl := parseUintLoop_digits _ 0 hall (by decide)
    simp only [decVal]
    unfold Atoi
    simp only [isDigit_ne_plus hc, isDigit_ne_minus hc, Bool.or_false, Bool.false_eq_true, if_false,
      List.isEmpty_cons, hpl]
    generalize (c :: cs).foldl (fun n c => n * 10 + (c.toNat - 48)) 0 = v
    by_cases h1 : v < 18446744073709551616
    · by_cases h2 : 9223372036854775808 ≤ v
      · have h3 : ¬ ((v : Int) ≤ 9223372036854775807) := by omega
        simp [h1, h2, h3]
      · have h3 : (v : Int) ≤ 9223372036854775807 := by omega
        simp [h1, h2, h3]
    · have h3 : ¬ ((v : Int) ≤ 9223372036854775807) := by omega
      simp [h1, h3]

theorem parseID_digits {l : Str} (h : regexpID l = true)
    (hfit : (decVal l : Int) ≤ 9223372036854775807) : parseID l = ((decVal l : Int), none) := by
  simp [parseID, Atoi_digits l h, hfit]

/-! ## The limit scan -/

theorem lastOr_nil {α : Type} (p : Str → Bool) (f : Str → α) (d : α) : lastOr p f d [] = d := rfl

theorem lastOr_cons {α : Type} (p : Str → Bool) (f : Str → α) (d : α) (l : Str) (ls : List Str) :
    lastOr p f d (l :: ls) = lastOr p f (if p l = true then f l else d) ls := by
  unfold lastOr lastWhere
  by_cases hp : p l = true
  · simp only [List.filter_cons, hp, if_true, List.getLast?_cons]
    cases (List.filter p ls).getLast? <;> simp
  · simp [List.filter_cons, hp]

theorem limitsStep_eq (st : srtTime × Int) (l : Str)
    (h : regexpTime l = true → (parseTime l).isSome = true) :
    limitsStep st l =
      some (if regexpTime l = true then (parseTime l).getD ⟨0, 0, []⟩ else st.1,
            if regexpID l = true then (parseID l).1 else st.2) := by
  unfold limitsStep
  by_cases ht : regexpTime l = true
  · obtain ⟨t, hpt⟩ := Option.isSome_iff_exists.mp (h ht)
    simp [ht, hpt]
  · simp [ht]

theorem limitsLoop_eq (ls : List Str) (st : srtTime × Int)
    (h : ∀ l ∈ ls, regexpTime l = true → (parseTime l).isSome = true) :
    limitsLoop st ls =
      some (lastOr regexpTime (fun l => (parseTime l).getD ⟨0, 0, []⟩) st.1 ls,
            lastOr regexpID (fun l => (parseID l).1) st.2 ls) := by
  induction ls generalizing st with
  | nil =>
    have : limitsStep st [] = some st := by simp [limitsStep, regexpID, regexpTime, digits1]
    simp [limitsLoop, this, lastOr_nil]
  | cons l ls ih =>
    have hl := h l (List.mem_cons_self _ _)
    have hrest : ∀ l1 ∈ ls, regexpTime l1 = true → (parseTime l1).isSome = true :=
      fun l1 h1 => h l1 (List.mem_cons_of_mem _ h1)
    simp only [limitsLoop, limitsStep_eq st l hl, Option.some_bind, ih _ hrest, lastOr_cons]

theorem lastOr_end_eq (ls : List Str) :
    (lastOr regexpTime (fun l => (parseTime l).getD ⟨0, 0, []⟩) ⟨0, 0, []⟩ ls).end_ = lastEndMillis ls := by
  unfold lastOr lastEndMillis
  cases lastWhere regexpTime ls with
  | none => rfl
  | some l => cases hp : parseTime l <;> simp [hp]

theorem mem_of_lastWhere {p : Str → Bool} {ls : List Str} {l : Str} (h : lastWhere p ls = some l) :
    l ∈ ls ∧ p l = true := by
  unfold lastWhere at h
  have := List.mem_of_getLast?_eq_some h
  simpa [List.mem_filter] using this

theorem lastOr_id_eq (ls : List Str)
    (h : ∀ l ∈ ls, regexpID l = true → (decVal l : Int) ≤ 9223372036854775807) :
    lastOr regexpID (fun l => (parseID l).1) 0 ls = lastSeqNumber ls := by
  unfold lastOr lastSeqNumber
  cases hl : lastWhere regexpID ls with
  | none => rfl
  | some l =>
    obtain ⟨hmem, hid⟩ := mem_of_lastWhere hl
    simp [parseID_digits hid (h l hmem hid)]

/-- The limit scan of a file on which parsing does not fail: no panic, no
error, and the last-seen values. -/
theorem getSRTlimits_eq (content : Str) (h : ParsesOK (readLines content)) :
    getSRTlimits (some content) =
      some (lastEndMillis (readLines content), lastSeqNumber (readLines content), none) := by
  simp only [getSRTlimits]
  rw [limitsLoop_eq _ _ (fun l hl => (h l hl).1)]
  simp only [Option.map_some']
  rw [lastOr_end_eq, lastOr_id_eq _ (fun l hl => (h l hl).2)]

theorem scan_eq (content : Str) (h : ParsesOK (readLines content)) :
    scan content = (lastEndMillis (readLines content), lastSeqNumber (readLines content)) := by
  simp [scan, getSRTlimits_eq content h]

theorem getSRTlimits_scan (content : Str) (h : ParsesOK (readLines content)) :
    getSRTlimits (some content) = some ((scan content).1, (scan content).2, none) := by
  rw [scan_eq content h, getSRTlimits_eq content h]

/-! ## The offset rewrite -/

theorem rewriteLine_eq (timeOff idOff : Int) (l : Str)
    (ht : regexpTime l = true → (parseTime l).isSome = true)
    (hid : regexpID l = true → (decVal l : Int) ≤ 9223372036854775807) :
    rewriteLine timeOff idOff l = some (writtenLine timeOff idOff l) := by
  unfold rewriteLine writtenLine
  by_cases h1 : regexpID l = true
  · simp [h1, parseID_digits h1 (hid h1)]
  · by_cases h2 : regexpTime l = true
    · obtain ⟨t, hpt⟩ := Option.isSome_iff_exists.mp (ht h2)
      simp [h1, h2, hpt, srtTime.String, srtTime.Offset]
    · simp [h1, h2]

theorem offsetLoop_eq (timeOff idOff : Int) (ls : List Str) (w : Str) (h : ParsesOK ls) :
    offsetLoop timeOff idOff w ls = some (w ++ unlines (ls.map (writtenLine timeOff idOff))) := by
  induction ls generalizing w with
  | nil => simp [offsetLoop, unlines]
  | cons l ls ih =>
    have hl := h l (List.mem_cons_self _ _)
    have hrest : ParsesOK ls := fun l1 h1 => h l1 (List.mem_cons_of_mem _ h1)
    simp only [offsetLoop, rewriteLine_eq timeOff idOff l hl.1 hl.2, Option.some_bind, ih _ hrest]
    simp [unlines]

theorem addSRToffset_eq (w content : Str) (timeOff idOff : Int) (h : ParsesOK (readLines content)) :
    addSRToffset w (some content) timeOff idOff =
      some (w ++ unlines ((readLines content).map (writtenLine timeOff idOff)), none) := by
  simp [addSRToffset, offsetLoop_eq timeOff idOff _ w h]

/-! ## The driver -/

theorem offsetAt_zero (contents : List Str) : offsetAt contents 0 = (0, 0) := by
  simp [offsetAt, wrapInt]

theorem offsetAt_succ (contents : List Str) (i : Nat) (c : Str) (hi : contents[i]? = some c) :
    offsetAt contents (i + 1) =
      (goAdd (offsetAt contents i).1 (scan c).1, goAdd (offsetAt contents i).2 (scan c).2) := by
  have htake : contents.take (i + 1) = contents.take i ++ [c] := by
    rw [List.take_succ, hi]; rfl
  simp only [offsetAt, htake, List.map_append, List.map_cons, List.map_nil, List.sum_append,
    List.sum_cons, List.sum_nil, add_zero, goAdd, wrapInt_add_left]

theorem concatLoop_eq (contents : List Str) (hok : ∀ c ∈ contents, ParsesOK (readLines c))
    (rest pre : List Str) (st : Driver) (hsplit : contents = pre ++ rest) (hpre : pre ≠ [])
    (hoff : (st.timeOff, st.idOff) = offsetAt contents (pre.length - 1)) :
    concatLoop (contents.map some) st pre.length (rest.map some) =
      some { err := none,
             out := st.w ++ outFrom contents pre.length rest,
             calls := st.calls ++ callsFrom contents pre.length rest } := by
  induction rest generalizing pre st with
  | nil => simp [concatLoop, outFrom, callsFrom]
  | cons c rest ih =>
    have hlen : pre.length ≠ 0 := fun h => hpre (List.length_eq_zero.mp h)
    obtain ⟨init, prev, hprev⟩ : ∃ init prev, pre = init ++ [prev] := by
      rcases List.eq_nil_or_concat pre with h | ⟨i, p, h⟩
      · exact absurd h hpre
      · exact ⟨i, p, by rw [h, List.concat_eq_append]⟩
    have hidx : pre.length - 1 = init.length := by simp [hprev]
    have hget : contents[pre.length - 1]? = some prev := by
      rw [hidx, hsplit, hprev, List.append_assoc, List.getElem?_append_right (Nat.le_refl _)]
      simp
    have hprevmem : prev ∈ contents := by rw [hsplit, hprev]; simp
    have hcmem : c ∈ contents := by rw [hsplit]; simp
    have hstep := offsetAt_succ contents (pre.length - 1) prev hget
    have hsucc : pre.length - 1 + 1 = pre.length := by omega
    rw [hsucc, ← hoff] at hstep
    simp only at hstep
    have hnext := ih (pre ++ [c])
      { w := st.w ++ unlines ((readLines c).map
              (writtenLine (goAdd st.timeOff (scan prev).1) (goAdd st.idOff (scan prev).2))),
        timeOff := goAdd st.timeOff (scan prev).1,
        idOff := goAdd st.idOff (scan prev).2,
        calls := st.calls ++ [(goAdd st.timeOff (scan prev).1, goAdd st.idOff (scan prev).2)] }
      (by rw [hsplit]; simp) (by simp) (by simp [hstep])
    simp only [List.length_append, List.length_singleton] at hnext
    simp only [List.map_cons, concatLoop, hlen, if_false, List.get?_eq_getElem?, List.getElem?_map,
      hget, Option.map_some', getSRTlimits_scan prev (hok prev hprevmem),
      addSRToffset_eq _ c _ _ (hok c hcmem), hnext, outFrom, callsFrom, hstep]
    simp

/-- The run of `Concat` on two or more files that can be opened and on which
parsing does not fail: no panic, a nil error, the first file copied with one
more newline, every later file writtenLine with the sum of the limits of the files
before it. -/
theorem Concat_eq (c0 : Str) (cs : List Str) (hcs : cs ≠ [])
    (hok : ∀ c ∈ c0 :: cs, ParsesOK (readLines c)) :
    Concat true ((c0 :: cs).map some) =
      some { err := none,
             out := unlines (readLines c0) ++ ['\n'] ++ outFrom (c0 :: cs) 1 cs,
             calls := callsFrom (c0 :: cs) 1 cs } := by
  have hlen : ¬ (cs.length + 1 < 2) := by
    have : cs.length ≠ 0 := fun h => hcs (List.length_eq_zero.mp h)
    omega
  have hloop := concatLoop_eq (c0 :: cs) hok cs [c0]
    { w := unlines (readLines c0) ++ ['\n'], timeOff := 0, idOff := 0, calls := [] }
    rfl (by simp) (by simp [offsetAt_zero])
  simp only [List.length_singleton, List.nil_append] at hloop
  simp only [Concat, Bool.not_true, Bool.false_eq_true, if_false, List.length_map, List.length_cons,
    hlen, List.map_cons, concatLoop, if_true, copySRTLines, copyLoop_eq, List.nil_append, Nat.zero_add]
  exact hloop

/-! ## Digits and the timestamp codec -/

theorem isDigit_bounds {c : Char} (h : c.isDigit = true) : 48 ≤ c.toNat ∧ c.toNat ≤ 57 := by
  simp only [Char.isDigit, Bool.and_eq_true, decide_eq_true_eq] at h
  exact ⟨h.1, h.2⟩

theorem digitChar_of_isDigit {c : Char} (h : c.isDigit = true) :
    Nat.digitChar (c.toNat - 48) = c := by
  have hb := isDigit_bounds h
  have key : ∀ d, d < 10 → Nat.digitChar d = Char.ofNat (48 + d) := by decide
  rw [key _ (by omega)]
  have : 48 + (c.toNat - 48) = c.toNat := by omega
  rw [this, Char.ofNat_toNat]

set_option maxRecDepth 100000 in
theorem time2Str_two_digits : ∀ a, a < 10 → ∀ b, b < 10 →
    time2Str (10 * a + b) = [Nat.digitChar a, Nat.digitChar b] := by decide

set_option maxRecDepth 100000 in
set_option maxHeartbeats 4000000 in
theorem millis2Str_three_digits : ∀ a, a < 10 → ∀ b, b < 10 → ∀ c, c < 10 →
    millis2Str ((100 * a + 10 * b + c : Nat) : Int)
      = [Nat.digitChar a, Nat.digitChar b, Nat.digitChar c] := by decide

theorem decVal_two (a b : Char) : decVal [a, b] = 10 * (a.toNat - 48) + (b.toNat - 48) := by
  simp [decVal]; omega

theorem decVal_three (a b c : Char) :
    decVal [a, b, c] = 100 * (a.toNat - 48) + 10 * (b.toNat - 48) + (c.toNat - 48) := by
  simp [decVal]; omega

theorem atoiOrPanic_two {a b : Char} (ha : a.isDigit = true) (hb : b.isDigit = true) :
    atoiOrPanic [a, b] = some (decVal [a, b] : Int) := by
  have hid : regexpID [a, b] = true := by simp [regexpID, ha, hb]
  have h1 := isDigit_bounds ha
  have h2 := isDigit_bounds hb
  have hfit : (decVal [a, b] : Int) ≤ 9223372036854775807 := by
    rw [decVal_two]; omega
  simp [atoiOrPanic, Atoi_digits _ hid, hfit]

theorem atoiOrPanic_three {a b c : Char} (ha : a.isDigit = true) (hb : b.isDigit = true)
    (hc : c.isDigit = true) : atoiOrPanic [a, b, c] = some (decVal [a, b, c] : Int) := by
  have hid : regexpID [a, b, c] = true := by simp [regexpID, ha, hb, hc]
  have h1 := isDigit_bounds ha
  have h2 := isDigit_bounds hb
  have h3 := isDigit_bounds hc
  have hfit : (decVal [a, b, c] : Int) ≤ 9223372036854775807 := by
    rw [decVal_three]; omega
  simp [atoiOrPanic, Atoi_digits _ hid, hfit]

/-- The arithmetic of `timeStr2Milli` does not leave the range of `int` when the
fields have at most three digits. -/
theorem millis_arith (h m s f : Nat) (hh : h ≤ 99) (hm : m ≤ 99) (hs : s ≤ 99) (hf : f ≤ 999) :
    goAdd (goAdd (goAdd (goAdd 0 (goMul (goMul (goMul (h : Int) 60) 60) 1000))
      (goMul (goMul (m : Int) 60) 1000)) (goMul (s : Int) 1000)) (f : Int)
      = (h : Int) * 3600000 + (m : Int) * 60000 + (s : Int) * 1000 + (f : Int) := by
  have e1 : goMul (h : Int) 60 = (h : Int) * 60 :=
    wrapInt_of_inRange ⟨by omega, by omega⟩
  have e2 : goMul ((h : Int) * 60) 60 = (h : Int) * 3600 := by
    unfold goMul
    rw [wrapInt_of_inRange ⟨by omega, by omega⟩]
    omega
  have e3 : goMul ((h : Int) * 3600) 1000 = (h : Int) * 3600000 := by
    unfold goMul
    rw [wrapInt_of_inRange ⟨by omega, by omega⟩]
    omega
  have e4 : goMul (m : Int) 60 = (m : Int) * 60 :=
    wrapInt_of_inRange ⟨by omega, by omega⟩
  have e5 : goMul ((m : Int) * 60) 1000 = (m : Int) * 60000 := by
    unfold goMul
    rw [wrapInt_of_inRange ⟨by omega, by omega⟩]
    omega
  have e6 : goMul (s : Int) 1000 = (s : Int) * 1000 :=
    wrapInt_of_inRange ⟨by omega, by omega⟩
  have e7 : goAdd 0 ((h : Int) * 3600000) = (h : Int) * 3600000 := by
    unfold goAdd
    rw [wrapInt_of_inRange ⟨by omega, by omega⟩]
    omega
  have e8 : goAdd ((h : Int) * 3600000) ((m : Int) * 60000)
      = (h : Int) * 3600000 + (m : Int) * 60000 :=
    wrapInt_of_inRange ⟨by omega, by omega⟩
  have e9 : goAdd ((h : Int) * 3600000 + (m : Int) * 60000) ((s : Int) * 1000)
      = (h : Int) * 3600000 + (m : Int) * 60000 + (s : Int) * 1000 :=
    wrapInt_of_inRange ⟨by omega, by omega⟩
  have e10 : goAdd ((h : Int) * 3600000 + (m : Int) * 60000 + (s : Int) * 1000) (f : Int)
      = (h : Int) * 3600000 + (m : Int) * 60000 + (s : Int) * 1000 + (f : Int) :=
    wrapInt_of_inRange ⟨by omega, by omega⟩
  rw [e1, e2, e3, e4, e5, e6, e7, e8, e9, e10]

/-- The millisecond count of a timestamp whose numeric fields are digits; the
three separator bytes are arbitrary. -/
theorem timeStr2Milli_fields (h1 h2 x m1 m2 y s1 s2 z f1 f2 f3 : Char)
    (hh1 : h1.isDigit = true) (hh2 : h2.isDigit = true)
    (hm1 : m1.isDigit = true) (hm2 : m2.isDigit = true)
    (hs1 : s1.isDigit = true) (hs2 : s2.isDigit = true)
    (hf1 : f1.isDigit = true) (hf2 : f2.isDigit = true) (hf3 : f3.isDigit = true) :
    timeStr2Milli [h1, h2, x, m1, m2, y, s1, s2, z, f1, f2, f3] =
      some ((decVal [h1, h2] * 3600000 + decVal [m1, m2] * 60000 + decVal [s1, s2] * 1000
              + decVal [f1, f2, f3] : Nat) : Int) := by
  have b1 := isDigit_bounds hh1
  have b2 := isDigit_bounds hh2
  have b3 := isDigit_bounds hm1
  have b4 := isDigit_bounds hm2
  have b5 := isDigit_bounds hs1
  have b6 := isDigit_bounds hs2
  have b7 := isDigit_bounds hf1
  have b8 := isDigit_bounds hf2
  have b9 := isDigit_bounds hf3
  have e1 : sliceTo [h1, h2, x, m1, m2, y, s1, s2, z, f1, f2, f3] 2 = some [h1, h2] := by
    simp [sliceTo]
  have e2 : (sliceFrom [h1, h2, x, m1, m2, y, s1, s2, z, f1, f2, f3] timePreffMin.length).bind
      (sliceTo · 2) = some [m1, m2] := by
    simp [sliceTo, sliceFrom, timePreffMin]
  have e3 : (sliceFrom [h1, h2, x, m1, m2, y, s1, s2, z, f1, f2, f3] timePreffSec.length).bind
      (sliceTo · 2) = some [s1, s2] := by
    simp [sliceTo, sliceFrom, timePreffSec]
  have e4 : sliceFrom [h1, h2, x, m1, m2, y, s1, s2, z, f1, f2, f3] timePreffMil.length
      = some [f1, f2, f3] := by
    simp [sliceFrom, timePreffMil]
  simp only [timeStr2Milli, e1, e2, e3, e4, Option.some_bind, Option.bind_eq_bind,
    atoiOrPanic_two hh1 hh2, atoiOrPanic_two hm1 hm2, atoiOrPanic_two hs1 hs2,
    atoiOrPanic_three hf1 hf2 hf3, Option.pure_def, Option.some.injEq]
  rw [millis_arith _ _ _ _ (by rw [decVal_two]; omega) (by rw [decVal_two]; omega)
    (by rw [decVal_two]; omega) (by rw [decVal_three]; omega)]
  push_cast
  ring

theorem isTimestamp_shape {s : Str} (h : isTimestamp s = true) :
    ∃ h1 h2 m1 m2 s1 s2 f1 f2 f3 : Char,
      s = [h1, h2, ':', m1, m2, ':', s1, s2, ',', f1, f2, f3] ∧
      h1.isDigit = true ∧ h2.isDigit = true ∧ m1.isDigit = true ∧ m2.isDigit = true ∧
      s1.isDigit = true ∧ s2.isDigit = true ∧
      f1.isDigit = true ∧ f2.isDigit = true ∧ f3.isDigit = true := by
  rcases s with _ | ⟨h1, _ | ⟨h2, _ | ⟨x, _ | ⟨m1, _ | ⟨m2, _ | ⟨y, _ | ⟨s1, _ | ⟨s2, _ |
    ⟨z, _ | ⟨f1, _ | ⟨f2, _ | ⟨f3, _ | ⟨e, t⟩⟩⟩⟩⟩⟩⟩⟩⟩⟩⟩⟩⟩ <;>
    simp only [isTimestamp, Bool.false_eq_true] at h
  simp only [Bool.and_eq_true, beq_iff_eq] at h
  obtain ⟨⟨⟨⟨⟨⟨⟨⟨⟨⟨⟨a1, a2⟩, a3⟩, a4⟩, a5⟩, a6⟩, a7⟩, a8⟩, a9⟩, a10⟩, a11⟩, a12⟩ := h
  subst a3 a6 a9
  exact ⟨h1, h2, m1, m2, s1, s2, f1, f2, f3, rfl, a1, a2, a4, a5, a7, a8, a10, a11, a12⟩

/-- The value of a well-formed timestamp: parsed without a panic, not negative
and below 362 440 000 milliseconds. -/
theorem timeStr2Milli_isTimestamp {s : Str} (h : isTimestamp s = true) :
    ∃ n : Nat, timeStr2Milli s = some (n : Int) ∧ n ≤ 362439999 := by
  obtain ⟨h1, h2, m1, m2, s1, s2, f1, f2, f3, rfl, a1, a2, a4, a5, a7, a8, a10, a11, a12⟩ :=
    isTimestamp_shape h
  refine ⟨_, timeStr2Milli_fields h1 h2 ':' m1 m2 ':' s1 s2 ',' f1 f2 f3 a1 a2 a4 a5 a7 a8 a10 a11 a12, ?_⟩
  have b1 := isDigit_bounds a1
  have b2 := isDigit_bounds a2
  have b3 := isDigit_bounds a4
  have b4 := isDigit_bounds a5
  have b5 := isDigit_bounds a7
  have b6 := isDigit_bounds a8
  have b7 := isDigit_bounds a10
  have b8 := isDigit_bounds a11
  have b9 := isDigit_bounds a12
  rw [decVal_two, decVal_two, decVal_two, decVal_three]
  omega

theorem toUint_of_nat (n : Nat) (h : n < 18446744073709551616) : toUint (n : Int) = n := by
  unfold toUint
  omega

theorem timeMilli2Str_nat (n : Nat) (hn : n < 18446744073709551616) :
    timeMilli2Str (n : Int) =
      time2Str (n / 1000 / 60 / 60) ++ ':' :: time2Str (n / 1000 / 60 % 60) ++ ':' ::
        time2Str (n / 1000 % 60) ++ ',' :: millis2Str ((n % 1000 : Nat) : Int) := by
  have h1 : (n : Int).tdiv 1000 = ((n / 1000 : Nat) : Int) := rfl
  have h2 : (n : Int).tmod 1000 = ((n % 1000 : Nat) : Int) := rfl
  have h3 : n / 1000 < 18446744073709551616 := by omega
  simp only [timeMilli2Str, h1, h2, toUint_of_nat _ h3]

/-! ## Ranges of the scanned limits -/

theorem timeStr2Milli_inRange {s : Str} {v : Int} (h : timeStr2Milli s = some v) : InIntRange v := by
  simp only [timeStr2Milli, Option.bind_eq_bind, Option.pure_def, Option.bind_eq_some,
    Option.some.injEq] at h
  obtain ⟨_, _, _, _, _, _, _, _, hv⟩ := h
  rw [← hv]
  exact wrapInt_inRange _

theorem parseTime_end_inRange {l : Str} {t : srtTime} (h : parseTime l = some t) :
    InIntRange t.end_ := by
  simp only [parseTime, Option.bind_eq_bind, Option.pure_def, Option.bind_eq_some,
    Option.some.injEq] at h
  obtain ⟨_, _, _, _, _, _, _, _, e, he, ht⟩ := h
  rw [← ht]
  exact timeStr2Milli_inRange he

theorem inIntRange_zero : InIntRange 0 := by
  unfold InIntRange; omega

theorem lastEndMillis_inRange (ls : List Str) : InIntRange (lastEndMillis ls) := by
  unfold lastEndMillis
  cases lastWhere regexpTime ls with
  | none => exact inIntRange_zero
  | some l =>
    cases hp : parseTime l with
    | none => simpa [hp] using inIntRange_zero
    | some t => simpa [hp] using parseTime_end_inRange hp

theorem lastSeqNumber_inRange (ls : List Str) (h : ParsesOK ls) :
    0 ≤ lastSeqNumber ls ∧ InIntRange (lastSeqNumber ls) := by
  unfold lastSeqNumber
  cases hl : lastWhere regexpID ls with
  | none => exact ⟨Int.le_refl 0, inIntRange_zero⟩
  | some l =>
    obtain ⟨hmem, hid⟩ := mem_of_lastWhere hl
    have hfit := (h l hmem).2 hid
    refine ⟨?_, ?_, ?_⟩
    · exact Int.ofNat_nonneg _
    · have : (0 : Int) ≤ (decVal l : Int) := Int.ofNat_nonneg _
      show -9223372036854775808 ≤ (decVal l : Int)
      omega
    · exact hfit

theorem callsFrom_length (contents : List Str) (i : Nat) (rest : List Str) :
    (callsFrom contents i rest).length = rest.length := by
  induction rest generalizing i with
  | nil => rfl
  | cons c rest ih => simp [callsFrom, ih]

theorem callsFrom_getElem? (contents : List Str) (i : Nat) (rest : List Str) (k : Nat)
    (hk : k < rest.length) : (callsFrom contents i rest)[k]? = some (offsetAt contents (i + k)) := by
  induction rest generalizing i k with
  | nil => simp at hk
  | cons c rest ih =>
    cases k with
    | zero => simp [callsFrom]
    | succ k =>
      simp only [callsFrom, List.getElem?_cons_succ]
      rw [ih (i + 1) k (by simpa using hk)]
      congr 2
      omega

/-! ## Well-formed time-range lines -/

theorem isTimestamp_length {s : Str} (h : isTimestamp s = true) : s.length = 12 := by
  obtain ⟨h1, h2, m1, m2, s1, s2, f1, f2, f3, rfl, _⟩ := isTimestamp_shape h
  rfl

/-- A well-formed time-range line is parsed without a panic; start and end are
not negative and below 362 440 000 milliseconds, the trailing text is what
follows the 29th byte. -/
theorem parseTime_isTimeRange {l : Str} (h : isTimeRange l = true) :
    ∃ n1 n2 : Nat, parseTime l = some { start := (n1 : Int), end_ := (n2 : Int), extra := l.drop 29 } ∧
      n1 ≤ 362439999 ∧ n2 ≤ 362439999 := by
  simp only [isTimeRange, Bool.and_eq_true] at h
  obtain ⟨⟨ht1, _⟩, ht2⟩ := h
  have hl2 := isTimestamp_length ht2
  have hlen : 29 ≤ l.length := by
    simp only [List.length_take, List.length_drop] at hl2
    omega
  obtain ⟨n1, hn1, hb1⟩ := timeStr2Milli_isTimestamp ht1
  obtain ⟨n2, hn2, hb2⟩ := timeStr2Milli_isTimestamp ht2
  refine ⟨n1, n2, ?_, hb1, hb2⟩
  have e1 : sliceTo l timeFormat.length = some (l.take 12) := by
    have : timeFormat.length = 12 := rfl
    simp only [sliceTo, this]
    rw [if_pos (by omega)]
  have e2 : (sliceFrom l (timeFormat.length + timeSep.length)).bind (sliceTo · timeFormat.length)
      = some ((l.drop 17).take 12) := by
    have h1 : timeFormat.length = 12 := rfl
    have h2 : timeSep.length = 5 := rfl
    simp only [sliceFrom, sliceTo, h1, h2]
    rw [if_pos (by omega)]
    simp only [Option.some_bind, List.length_drop]
    rw [if_pos (by omega)]
  have e3 : sliceFrom l (2 * timeFormat.length + timeSep.length) = some (l.drop 29) := by
    have h1 : timeFormat.length = 12 := rfl
    have h2 : timeSep.length = 5 := rfl
    simp only [sliceFrom, h1, h2]
    rw [if_pos (by omega)]
  simp only [parseTime, e1, e2, e3, hn1, hn2, Option.bind_eq_bind, Option.some_bind, Option.pure_def]

theorem ParsesOK_of_WellFormed {ls : List Str} (h : WellFormed ls) : ParsesOK ls := by
  intro l hl
  refine ⟨fun ht => ?_, (h l hl).2⟩
  obtain ⟨n1, n2, hp, _⟩ := parseTime_isTimeRange ((h l hl).1 ht)
  simp [hp]

theorem lastEndMillis_nonneg {ls : List Str} (h : WellFormed ls) :
    0 ≤ lastEndMillis ls ∧ lastEndMillis ls ≤ 362439999 := by
  unfold lastEndMillis
  cases hl : lastWhere regexpTime ls with
  | none => simp
  | some l =>
    obtain ⟨hmem, ht⟩ := mem_of_lastWhere hl
    obtain ⟨n1, n2, hp, _, hb⟩ := parseTime_isTimeRange ((h l hmem).1 ht)
    simp only [hp, Option.map_some', Option.getD_some]
    omega

theorem scan_nonneg {c : Str} (h : WellFormed (readLines c)) :
    (0 ≤ (scan c).1 ∧ (scan c).1 ≤ 362439999) ∧ 0 ≤ (scan c).2 := by
  rw [scan_eq c (ParsesOK_of_WellFormed h)]
  exact ⟨lastEndMillis_nonneg h, (lastSeqNumber_inRange _ (ParsesOK_of_WellFormed h)).1⟩

/-- The limit scan never returns a negative sequence number. -/
theorem scan_id_nonneg {c : Str} (h : ParsesOK (readLines c)) : 0 ≤ (scan c).2 := by
  rw [scan_eq c h]
  exact (lastSeqNumber_inRange _ h).1

theorem sum_take_le_sum (xs : List Int) (h : ∀ x ∈ xs, 0 ≤ x) (i : Nat) :
    0 ≤ (xs.take i).sum ∧ (xs.take i).sum ≤ xs.sum := by
  induction xs generalizing i with
  | nil => simp
  | cons x xs ih =>
    have hx := h x (List.mem_cons_self _ _)
    have hrest : ∀ y ∈ xs, 0 ≤ y := fun y hy => h y (List.mem_cons_of_mem _ hy)
    cases i with
    | zero =>
      have := ih hrest xs.length
      simp only [List.take_length] at this
      simp only [List.take_zero, List.sum_nil, List.sum_cons]
      omega
    | succ i =>
      have := ih hrest i
      simp only [List.take_succ_cons, List.sum_cons]
      omega

theorem sum_take_mono (xs : List Int) (h : ∀ x ∈ xs, 0 ≤ x) (i : Nat) :
    (xs.take i).sum ≤ (xs.take (i + 1)).sum := by
  induction xs generalizing i with
  | nil => simp
  | cons x xs ih =>
    have hx := h x (List.mem_cons_self _ _)
    have hrest : ∀ y ∈ xs, 0 ≤ y := fun y hy => h y (List.mem_cons_of_mem _ hy)
    cases i with
    | zero =>
      have := (sum_take_le_sum xs hrest 1).1
      simp only [List.take_zero, List.sum_nil, List.take_succ_cons, List.sum_cons]
      omega
    | succ i =>
      have := ih hrest i
      simp only [List.take_succ_cons, List.sum_cons]
      omega

theorem offsetAt_of_fit (contents : List Str) (i : Nat)
    (hT0 : ∀ c ∈ contents, 0 ≤ (scan c).1) (hI0 : ∀ c ∈ contents, 0 ≤ (scan c).2)
    (hT : ((contents.take i).map (fun c => (scan c).1)).sum ≤ 9223372036854775807)
    (hI : ((contents.take i).map (fun c => (scan c).2)).sum ≤ 9223372036854775807) :
    offsetAt contents i =
      (((contents.take i).map (fun c => (scan c).1)).sum,
       ((contents.take i).map (fun c => (scan c).2)).sum) := by
  have h1 := (sum_take_le_sum (contents.map (fun c => (scan c).1))
    (by simpa using hT0) i).1
  have h2 := (sum_take_le_sum (contents.map (fun c => (scan c).2))
    (by simpa using hI0) i).1
  rw [← List.map_take] at h1 h2
  unfold offsetAt
  rw [wrapInt_of_inRange ⟨by omega, hT⟩, wrapInt_of_inRange ⟨by omega, hI⟩]

/-! ## Repeated files -/

theorem dropWhile_head_mem {p : Char → Bool} {l r : Str} {x : Char}
    (h : l.dropWhile p = x :: r) : x ∈ l ∧ p x = false := by
  induction l with
  | nil => simp at h
  | cons c cs ih =>
    simp only [List.dropWhile_cons] at h
    by_cases hc : p c = true
    · rw [if_pos hc] at h
      exact ⟨List.mem_cons_of_mem _ (ih h).1, (ih h).2⟩
    · rw [if_neg hc] at h
      cases h
      exact ⟨List.mem_cons_self _ _, by simpa using hc⟩

theorem digits1_eq_some {s r : Str} (h : digits1 s = some r) :
    s.dropWhile Char.isDigit = r ∧ ∃ c cs, s = c :: cs ∧ c.isDigit = true := by
  cases s with
  | nil => simp [digits1] at h
  | cons c cs =>
    simp only [digits1] at h
    by_cases hc : c.isDigit = true
    · rw [if_pos hc] at h
      exact ⟨Option.some.inj h, c, cs, rfl, hc⟩
    · rw [if_neg hc] at h
      cases h

/-- A line the time-range pattern accepts contains a colon after its leading
digits. -/
theorem regexpTime_colon {l : Str} (h : regexpTime l = true) :
    ∃ r, l.dropWhile Char.isDigit = ':' :: r := by
  unfold regexpTime at h
  split at h
  · rename_i r1 hd
    exact ⟨r1, (digits1_eq_some hd).1⟩
  · cases h

theorem regexpTime_not_regexpID {l : Str} (h : regexpTime l = true) : regexpID l = false := by
  obtain ⟨r, hr⟩ := regexpTime_colon h
  obtain ⟨hmem, _⟩ := dropWhile_head_mem hr
  by_contra hid
  simp only [Bool.not_eq_false] at hid
  simp only [regexpID, Bool.and_eq_true, List.all_eq_true] at hid
  have := hid.2 ':' hmem
  exact absurd this (by decide)

/-! ## Parsing a time-range line -/

theorem isTimeRange_append {T1 T2 : Str} (rest : Str) (h1 : isTimestamp T1 = true)
    (h2 : isTimestamp T2 = true) : isTimeRange (T1 ++ timeSep ++ T2 ++ rest) = true := by
  have l1 := isTimestamp_length h1
  have l2 := isTimestamp_length h2
  have ls : timeSep.length = 5 := rfl
  have e1 : (T1 ++ timeSep ++ T2 ++ rest).take 12 = T1 := by
    rw [List.append_assoc, List.append_assoc, List.take_append_eq_append_take, l1]
    simp [← l1]
  have e2 : ((T1 ++ timeSep ++ T2 ++ rest).drop 12).take 5 = timeSep := by
    rw [List.append_assoc, List.append_assoc, List.drop_append_eq_append_drop, l1]
    simp only [Nat.sub_self, List.drop_zero]
    rw [show List.drop 12 T1 = [] by rw [← l1]; exact List.drop_length T1]
    rw [List.nil_append, List.take_append_eq_append_take, ls]
    simp [← ls]
  have e3 : ((T1 ++ timeSep ++ T2 ++ rest).drop 17).take 12 = T2 := by
    have hlen : (T1 ++ timeSep).length = 17 := by simp [l1, ls]
    rw [List.append_assoc (T1 ++ timeSep), List.drop_append_eq_append_drop, hlen]
    simp only [Nat.sub_self, List.drop_zero]
    rw [show List.drop 17 (T1 ++ timeSep) = [] by rw [← hlen]; exact List.drop_length _]
    rw [List.nil_append, List.take_append_eq_append_take, l2]
    simp [← l2]
  simp only [isTimeRange, e1, e2, e3, h1, h2, beq_self_eq_true, Bool.and_self]

theorem drop_29_append {T1 T2 : Str} (rest : Str) (h1 : T1.length = 12) (h2 : T2.length = 12) :
    (T1 ++ timeSep ++ T2 ++ rest).drop 29 = rest := by
  have hlen : (T1 ++ timeSep ++ T2).length = 29 := by
    have ls : timeSep.length = 5 := rfl
    simp [h1, h2, ls]
  rw [List.drop_append_eq_append_drop, hlen]
  simp only [Nat.sub_self, List.drop_zero]
  rw [show List.drop 29 (T1 ++ timeSep ++ T2) = [] by rw [← hlen]; exact List.drop_length _]
  rfl

/-! ## When parsing panics -/

theorem atoiOrPanic_eq_none (f : Str) : atoiOrPanic f = none ↔ (Atoi f).2 ≠ none := by
  unfold atoiOrPanic
  rcases hA : Atoi f with ⟨v, e⟩
  cases e <;> simp

theorem timeStr2Milli_eq_none (T : Str) (hlen : T.length = 12) :
    timeStr2Milli T = none ↔
      ((Atoi (T.take 2)).2 ≠ none ∨ (Atoi ((T.drop 3).take 2)).2 ≠ none ∨
       (Atoi ((T.drop 6).take 2)).2 ≠ none ∨ (Atoi (T.drop 9)).2 ≠ none) := by
  have c1 : timePreffMin.length = 3 := rfl
  have c2 : timePreffSec.length = 6 := rfl
  have c3 : timePreffMil.length = 9 := rfl
  have e1 : sliceTo T 2 = some (T.take 2) := by
    simp only [sliceTo]; rw [if_pos (by omega)]
  have e2 : (sliceFrom T timePreffMin.length).bind (sliceTo · 2) = some ((T.drop 3).take 2) := by
    simp only [sliceFrom, sliceTo, c1]
    rw [if_pos (by omega)]
    simp only [Option.some_bind, List.length_drop]
    rw [if_pos (by omega)]
  have e3 : (sliceFrom T timePreffSec.length).bind (sliceTo · 2) = some ((T.drop 6).take 2) := by
    simp only [sliceFrom, sliceTo, c2]
    rw [if_pos (by omega)]
    simp only [Option.some_bind, List.length_drop]
    rw [if_pos (by omega)]
  have e4 : sliceFrom T timePreffMil.length = some (T.drop 9) := by
    simp only [sliceFrom, c3]; rw [if_pos (by omega)]
  simp only [timeStr2Milli, e1, e2, e3, e4, Option.bind_eq_bind, Option.some_bind, Option.pure_def,
    ← atoiOrPanic_eq_none]
  cases atoiOrPanic (T.take 2) <;> cases atoiOrPanic ((T.drop 3).take 2) <;>
    cases atoiOrPanic ((T.drop 6).take 2) <;> cases atoiOrPanic (T.drop 9) <;> simp

theorem parseTime_eq_none (line : Str) (hlen : 29 ≤ line.length) :
    parseTime line = none ↔
      (timeStr2Milli (line.take 12) = none ∨ timeStr2Milli ((line.drop 17).take 12) = none) := by
  have c1 : timeFormat.length = 12 := rfl
  have c2 : timeSep.length = 5 := rfl
  simp only [parseTime, sliceTo, sliceFrom, c1, c2, Option.bind_eq_bind]
  rw [if_pos (by omega), if_pos (by omega), if_pos (by omega)]
  simp only [Option.some_bind, List.length_drop]
  rw [if_pos (by omega)]
  simp only [Option.some_bind, Option.pure_def]
  cases timeStr2Milli (line.take 12) <;> cases timeStr2Milli ((line.drop 17).take 12) <;> simp

theorem parseTime_short (line : Str) (hlen : line.length < 29) : parseTime line = none := by
  have c1 : timeFormat.length = 12 := rfl
  have c2 : timeSep.length = 5 := rfl
  simp only [parseTime, sliceTo, sliceFrom, c1, c2, Option.bind_eq_bind]
  by_cases h12 : 12 ≤ line.length
  · rw [if_pos h12]
    simp only [Option.some_bind]
    by_cases h17 : 12 + 5 ≤ line.length
    · rw [if_pos h17]
      simp only [Option.some_bind, List.length_drop]
      rw [if_neg (by omega)]
      rfl
    · rw [if_neg h17]
      rfl
  · rw [if_neg h12]
    rfl

theorem limitsStep_panics (st : srtTime × Int) {l : Str} (ht : regexpTime l = true)
    (hp : parseTime l = none) : limitsStep st l = none := by
  simp [limitsStep, ht, hp]

theorem limitsLoop_panics (ls : List Str) (st : srtTime × Int) {l : Str} (hmem : l ∈ ls)
    (ht : regexpTime l = true) (hp : parseTime l = none) : limitsLoop st ls = none := by
  induction ls generalizing st with
  | nil => cases hmem
  | cons x xs ih =>
    simp only [limitsLoop]
    rcases List.mem_cons.mp hmem with h | h
    · subst h
      rw [limitsStep_panics st ht hp]
      rfl
    · cases hstep : limitsStep st x with
      | none => rfl
      | some st1 => exact ih st1 h

theorem rewriteLine_panics (timeOff idOff : Int) {l : Str} (ht : regexpTime l = true)
    (hp : parseTime l = none) : rewriteLine timeOff idOff l = none := by
  simp [rewriteLine, regexpTime_not_regexpID ht, ht, hp]

theorem offsetLoop_panics (timeOff idOff : Int) (ls : List Str) (w : Str) {l : Str}
    (hmem : l ∈ ls) (ht : regexpTime l = true) (hp : parseTime l = none) :
    offsetLoop timeOff idOff w ls = none := by
  induction ls generalizing w with
  | nil => cases hmem
  | cons x xs ih =>
    simp only [offsetLoop]
    rcases List.mem_cons.mp hmem with h | h
    · subst h
      rw [rewriteLine_panics timeOff idOff ht hp]
      rfl
    · cases hstep : rewriteLine timeOff idOff x with
      | none => rfl
      | some l1 => exact ih _ h

/-! ## Decimal numerals -/

theorem toDigitsCore_eq (n : Nat) : ∀ fuel acc, n < fuel →
    Nat.toDigitsCore 10 fuel n acc = Nat.toDigits 10 n ++ acc := by
  induction n using Nat.strong_induction_on with
  | _ n ih =>
    intro fuel acc hf
    cases fuel with
    | zero => omega
    | succ f =>
      by_cases h0 : n / 10 = 0
      · simp [Nat.toDigits, Nat.toDigitsCore, h0]
      · have hlt : n / 10 < n := by omega
        have e1 : Nat.toDigitsCore 10 (f + 1) n acc
            = Nat.toDigitsCore 10 f (n / 10) (Nat.digitChar (n % 10) :: acc) := by
          simp [Nat.toDigitsCore, h0]
        have e2 : Nat.toDigits 10 n
            = Nat.toDigitsCore 10 n (n / 10) [Nat.digitChar (n % 10)] := by
          simp [Nat.toDigits, Nat.toDigitsCore, h0]
        rw [e1, e2, ih (n / 10) hlt f _ (by omega), ih (n / 10) hlt n _ hlt]
        simp

theorem toDigits_lt_ten {n : Nat} (h : n < 10) : Nat.toDigits 10 n = [Nat.digitChar n] := by
  have h0 : n / 10 = 0 := by omega
  have h1 : n % 10 = n := by omega
  simp [Nat.toDigits, Nat.toDigitsCore, h0, h1]

theorem toDigits_step {n : Nat} (h : 10 ≤ n) :
    Nat.toDigits 10 n = Nat.toDigits 10 (n / 10) ++ [Nat.digitChar (n % 10)] := by
  have h0 : n / 10 ≠ 0 := by omega
  have e2 : Nat.toDigits 10 n = Nat.toDigitsCore 10 n (n / 10) [Nat.digitChar (n % 10)] := by
    simp [Nat.toDigits, Nat.toDigitsCore, h0]
  rw [e2, toDigitsCore_eq (n / 10) n _ (by omega)]

theorem digitChar_isDigit {d : Nat} (h : d < 10) :
    (Nat.digitChar d).isDigit = true ∧ (Nat.digitChar d).toNat - 48 = d := by
  have key : ∀ d, d < 10 → (Nat.digitChar d).isDigit = true ∧ (Nat.digitChar d).toNat - 48 = d := by
    decide
  exact key d h

theorem toDigits_all_digits (n : Nat) : (Nat.toDigits 10 n).all Char.isDigit = true := by
  induction n using Nat.strong_induction_on with
  | _ n ih =>
    by_cases h : n < 10
    · rw [toDigits_lt_ten h]
      simp [(digitChar_isDigit h).1]
    · rw [toDigits_step (by omega)]
      simp only [List.all_append, ih (n / 10) (by omega), Bool.true_and, List.all_cons,
        List.all_nil, Bool.and_true]
      exact (digitChar_isDigit (Nat.mod_lt n (by decide))).1

theorem toDigits_ne_nil (n : Nat) : Nat.toDigits 10 n ≠ [] := by
  by_cases h : n < 10
  · rw [toDigits_lt_ten h]; simp
  · rw [toDigits_step (by omega)]; simp

theorem regexpID_toDigits (n : Nat) : regexpID (Nat.toDigits 10 n) = true := by
  have h1 := toDigits_ne_nil n
  have h2 := toDigits_all_digits n
  cases hd : Nat.toDigits 10 n with
  | nil => exact absurd hd h1
  | cons c cs =>
    rw [hd] at h2
    simp only [regexpID, List.isEmpty_cons, Bool.not_false, Bool.true_and]
    exact h2

theorem decVal_append (xs : Str) (c : Char) :
    decVal (xs ++ [c]) = decVal xs * 10 + (c.toNat - 48) := by
  simp [decVal, List.foldl_append]

theorem decVal_toDigits (n : Nat) : decVal (Nat.toDigits 10 n) = n := by
  induction n using Nat.strong_induction_on with
  | _ n ih =>
    by_cases h : n < 10
    · rw [toDigits_lt_ten h]
      simp [decVal, (digitChar_isDigit h).2]
    · rw [toDigits_step (by omega), decVal_append, ih (n / 10) (by omega),
        (digitChar_isDigit (Nat.mod_lt n (by decide))).2]
      omega

theorem toDigits_two {n : Nat} (h1 : 10 ≤ n) (h2 : n < 100) :
    Nat.toDigits 10 n = [Nat.digitChar (n / 10), Nat.digitChar (n % 10)] := by
  rw [toDigits_step h1, toDigits_lt_ten (by omega)]
  rfl

theorem toDigits_three {n : Nat} (h1 : 100 ≤ n) (h2 : n < 1000) :
    Nat.toDigits 10 n
      = [Nat.digitChar (n / 100), Nat.digitChar (n / 10 % 10), Nat.digitChar (n % 10)] := by
  rw [toDigits_step (by omega), toDigits_two (by omega) (by omega)]
  have : n / 10 / 10 = n / 100 := by omega
  rw [this]
  rfl

theorem toDigits_length_ge_two {n : Nat} (h : 10 ≤ n) : 2 ≤ (Nat.toDigits 10 n).length := by
  rw [toDigits_step h]
  have := toDigits_ne_nil (n / 10)
  have : 0 < (Nat.toDigits 10 (n / 10)).length := List.length_pos.mpr this
  simp only [List.length_append, List.length_singleton]
  omega

theorem toDigits_length_ge_three {n : Nat} (h : 100 ≤ n) : 3 ≤ (Nat.toDigits 10 n).length := by
  rw [toDigits_step (by omega)]
  have := @toDigits_length_ge_two (n / 10) (by omega)
  simp only [List.length_append, List.length_singleton]
  omega

theorem time2Str_lt_100 {t : Nat} (h : t < 100) :
    time2Str t = [Nat.digitChar (t / 10), Nat.digitChar (t % 10)] := by
  have := time2Str_two_digits (t / 10) (by omega) (t % 10) (by omega)
  rw [show 10 * (t / 10) + t % 10 = t by omega] at this
  exact this

theorem millis2Str_lt_1000 {t : Nat} (h : t < 1000) :
    millis2Str (t : Int)
      = [Nat.digitChar (t / 100), Nat.digitChar (t / 10 % 10), Nat.digitChar (t % 10)] := by
  have := millis2Str_three_digits (t / 100) (by omega) (t / 10 % 10) (by omega) (t % 10) (by omega)
  rw [show 100 * (t / 100) + 10 * (t / 10 % 10) + t % 10 = t by omega] at this
  exact this

theorem time2Str_eq_pad2 (t : Nat) : time2Str t = pad2 t := by
  unfold time2Str pad2 padLeft fmtUint
  by_cases h : t < 10
  · rw [if_pos h, toDigits_lt_ten h]
    rfl
  · rw [if_neg h]
    have := @toDigits_length_ge_two t (by omega)
    rw [show 2 - (Nat.toDigits 10 t).length = 0 by omega]
    rfl

theorem fmtInt_ofNat (t : Nat) : fmtInt (t : Int) = Nat.toDigits 10 t := by
  unfold fmtInt
  rw [if_neg (by omega)]
  rfl

theorem millis2Str_eq_pad3 {t : Nat} (h : t < 1000) : millis2Str (t : Int) = pad3 t := by
  unfold millis2Str pad3 padLeft
  rw [fmtInt_ofNat]
  by_cases h1 : t < 10
  · rw [if_pos (by omega), toDigits_lt_ten h1]
    rfl
  · rw [if_neg (by omega)]
    by_cases h2 : t < 100
    · rw [if_pos (by omega), toDigits_two (by omega) h2]
      rfl
    · rw [if_neg (by omega)]
      have := @toDigits_length_ge_three t (by omega)
      rw [show 3 - (Nat.toDigits 10 t).length = 0 by omega]
      rfl

theorem pad2_length_lt {t : Nat} (h : t < 100) : (pad2 t).length = 2 := by
  rw [← time2Str_eq_pad2, time2Str_lt_100 h]
  rfl

theorem pad2_length_ge {t : Nat} (h : 100 ≤ t) : 3 ≤ (pad2 t).length := by
  unfold pad2 padLeft
  have := @toDigits_length_ge_three t h
  simp only [List.length_append, List.length_replicate]
  omega

theorem pad3_length_lt {t : Nat} (h : t < 1000) : (pad3 t).length = 3 := by
  rw [← millis2Str_eq_pad3 h, millis2Str_lt_1000 h]
  rfl

/-! ## The lines of the output -/

theorem unlines_append (a b : List Str) : unlines (a ++ b) = unlines a ++ unlines b := by
  simp [unlines]

theorem outFrom_eq_unlines (contents : List Str) (i : Nat) (rest : List Str) :
    outFrom contents i rest = unlines (linesFrom contents i rest) := by
  induction rest generalizing i with
  | nil => rfl
  | cons c rest ih => simp only [outFrom, linesFrom, unlines_append, ih]

theorem takeWhile_no_newline (r : Str) : '\n' ∉ r.takeWhile (· != '\n') := by
  intro h
  have := List.mem_takeWhile_imp h
  simp at this

theorem dropCR_subset {l : Str} {c : Char} (h : c ∈ dropCR l) : c ∈ l := by
  unfold dropCR at h
  split at h
  · exact List.mem_of_mem_dropLast h
  · exact h

theorem not_mem_of_any_newline_false {l : Str} (h : ¬ (l.any (· == '\n') = true)) :
    '\n' ∉ l := by
  intro hm
  apply h
  rw [List.any_eq_true]
  exact ⟨'\n', hm, by simp⟩

theorem ReadLine_no_newline {r line rest : Str} (h : ReadLine r = some (line, rest)) :
    '\n' ∉ line := by
  cases r with
  | nil => simp [ReadLine] at h
  | cons c cs =>
    simp only [ReadLine] at h
    split at h
    · simp only [Option.some.injEq, Prod.mk.injEq] at h
      rw [← h.1]
      intro hmem
      exact takeWhile_no_newline _ (dropCR_subset hmem)
    · rename_i hwin
      have hno := not_mem_of_any_newline_false hwin
      split at h
      · split at h
        · simp only [Option.some.injEq, Prod.mk.injEq] at h
          rw [← h.1]
          intro hmem
          exact hno (List.mem_of_mem_dropLast hmem)
        · simp only [Option.some.injEq, Prod.mk.injEq] at h
          rw [← h.1]
          exact hno
      · rename_i hfull
        simp only [Option.some.injEq, Prod.mk.injEq] at h
        rw [← h.1]
        rw [List.take_of_length_le (by omega)] at hno
        exact hno

theorem readAll_no_newline (n : Nat) (r : Str) : ∀ l ∈ readAll n r, '\n' ∉ l := by
  induction n generalizing r with
  | zero => intro l hl; simp [readAll] at hl
  | succ n ih =>
    intro l hl
    simp only [readAll] at hl
    cases hr : ReadLine r with
    | none => rw [hr] at hl; simp at hl
    | some p =>
      obtain ⟨line, rest⟩ := p
      rw [hr] at hl
      simp only [List.mem_cons] at hl
      rcases hl with h | h
      · rw [h]; exact ReadLine_no_newline hr
      · exact ih rest l h

theorem readLines_no_newline (content : Str) : ∀ l ∈ readLines content, '\n' ∉ l :=
  readAll_no_newline _ _

/-- The characters a rendered number or timestamp is made of. -/
theorem toDigits_mem_isDigit {n : Nat} {c : Char} (h : c ∈ Nat.toDigits 10 n) :
    c.isDigit = true :=
  List.all_eq_true.mp (toDigits_all_digits n) c h

theorem colon_not_regexpID {s : Str} (h : ':' ∈ s) : regexpID s = false := by
  by_contra hid
  simp only [Bool.not_eq_false] at hid
  simp only [regexpID, Bool.and_eq_true, List.all_eq_true] at hid
  exact absurd (hid.2 ':' h) (by decide)

theorem minus_not_regexpID (s : Str) : regexpID ('-' :: s) = false := by
  simp [regexpID]

theorem fmtInt_no_newline (v : Int) : '\n' ∉ fmtInt v := by
  unfold fmtInt
  split
  · intro h
    rcases List.mem_cons.mp h with h1 | h1
    · exact absurd h1 (by decide)
    · exact absurd (toDigits_mem_isDigit h1) (by decide)
  · intro h
    exact absurd (toDigits_mem_isDigit h) (by decide)

theorem time2Str_no_newline (t : Nat) : '\n' ∉ time2Str t := by
  unfold time2Str fmtUint
  split
  · intro h
    rcases List.mem_cons.mp h with h1 | h1
    · exact absurd h1 (by decide)
    · exact absurd (toDigits_mem_isDigit h1) (by decide)
  · intro h
    exact absurd (toDigits_mem_isDigit h) (by decide)

theorem millis2Str_no_newline (t : Int) : '\n' ∉ millis2Str t := by
  have hf := fmtInt_no_newline t
  unfold millis2Str
  split
  · intro h
    rcases List.mem_cons.mp h with h1 | h1
    · exact absurd h1 (by decide)
    · rcases List.mem_cons.mp h1 with h2 | h2
      · exact absurd h2 (by decide)
      · exact hf h2
  · split
    · intro h
      rcases List.mem_cons.mp h with h1 | h1
      · exact absurd h1 (by decide)
      · exact hf h1
    · exact hf

theorem timeMilli2Str_no_newline (x : Int) : '\n' ∉ timeMilli2Str x := by
  unfold timeMilli2Str
  intro h
  simp only [List.mem_append, List.mem_cons] at h
  rcases h with ((h | h | h) | h | h) | h | h
  · exact time2Str_no_newline _ h
  · exact absurd h (by decide)
  · exact time2Str_no_newline _ h
  · exact absurd h (by decide)
  · exact time2Str_no_newline _ h
  · exact absurd h (by decide)
  · exact millis2Str_no_newline _ h

theorem timeMilli2Str_colon (x : Int) : ':' ∈ timeMilli2Str x := by
  unfold timeMilli2Str
  simp

theorem parseTime_extra {l : Str} {t : srtTime} (h : parseTime l = some t) :
    t.extra = l.drop 29 := by
  simp only [parseTime, Option.bind_eq_bind, Option.pure_def, Option.bind_eq_some,
    Option.some.injEq] at h
  obtain ⟨_, _, _, _, e, he, _, _, _, _, ht⟩ := h
  rw [← ht]
  simp only [sliceFrom] at he
  split at he
  · exact (Option.some.inj he).symm
  · cases he

theorem writtenLine_no_newline (timeOff idOff : Int) {l : Str} (h : '\n' ∉ l) :
    '\n' ∉ writtenLine timeOff idOff l := by
  unfold writtenLine
  split
  · exact fmtInt_no_newline _
  · split
    · split
      · rename_i t hp
        intro hmem
        simp only [srtTime.String, srtTime.Offset, List.mem_append] at hmem
        rcases hmem with ((h1 | h1) | h1) | h1
        · exact timeMilli2Str_no_newline _ h1
        · exact absurd h1 (by decide)
        · exact timeMilli2Str_no_newline _ h1
        · rw [parseTime_extra hp] at h1
          exact h (List.mem_of_mem_drop h1)
      · exact h
    · exact h

theorem writtenLine_of_regexpID (timeOff idOff : Int) {l : Str} (h : regexpID l = true) :
    writtenLine timeOff idOff l = fmtInt (goAdd (decVal l) idOff) := by
  simp [writtenLine, h]

theorem writtenLine_not_regexpID (timeOff idOff : Int) {l : Str} (h : regexpID l = false) :
    regexpID (writtenLine timeOff idOff l) = false := by
  unfold writtenLine
  rw [if_neg (by simp [h])]
  split
  · split
    · apply colon_not_regexpID
      simp only [srtTime.String, List.mem_append]
      exact Or.inl (Or.inl (Or.inl (timeMilli2Str_colon _)))
    · exact h
  · exact h

theorem filter_map_writtenLine (timeOff idOff : Int) (ls : List Str) :
    (ls.map (writtenLine timeOff idOff)).filter regexpID =
      ((ls.filter regexpID).map (fun l => fmtInt (goAdd (decVal l) idOff))).filter regexpID := by
  induction ls with
  | nil => rfl
  | cons l ls ih =>
    by_cases h : regexpID l = true
    · simp only [List.map_cons, List.filter_cons, h, if_true, writtenLine_of_regexpID timeOff idOff h,
        ih]
    · have hf : regexpID l = false := by simpa using h
      simp only [List.map_cons, List.filter_cons, writtenLine_not_regexpID timeOff idOff hf, hf,
        Bool.false_eq_true, if_false, ih]

/-! ## Consecutive sequence numbers -/

theorem numerals_succ (a n : Nat) :
    numerals a (n + 1) = numerals a n ++ [Nat.toDigits 10 (a + n + 1)] := by
  simp [numerals, List.range_succ]

theorem numerals_append (a n m : Nat) :
    numerals a n ++ numerals (a + n) m = numerals a (n + m) := by
  induction m with
  | zero => simp [numerals]
  | succ m ih =>
    rw [numerals_succ, ← List.append_assoc, ih, show n + (m + 1) = (n + m) + 1 by omega,
      numerals_succ, show a + n + m + 1 = a + (n + m) + 1 by omega]

theorem numerals_regexpID (a n : Nat) : ∀ l ∈ numerals a n, regexpID l = true := by
  intro l hl
  simp only [numerals, List.mem_map] at hl
  obtain ⟨i, _, rfl⟩ := hl
  exact regexpID_toDigits _

theorem numerals_filter (a n : Nat) : (numerals a n).filter regexpID = numerals a n :=
  List.filter_eq_self.mpr (numerals_regexpID a n)

theorem numerals_getLast (a n : Nat) :
    (numerals a (n + 1)).getLast? = some (Nat.toDigits 10 (a + n + 1)) := by
  rw [numerals_succ, List.getLast?_concat]

theorem shift_numeral (o i n : Nat) (hin : i < n)
    (h : ((o + n : Nat) : Int) ≤ 9223372036854775807) :
    fmtInt (goAdd (decVal (Nat.toDigits 10 (0 + i + 1)) : Int) (o : Int))
      = Nat.toDigits 10 (o + i + 1) := by
  have hv : ((decVal (Nat.toDigits 10 (0 + i + 1)) : Nat) : Int) + (o : Int)
      = ((o + i + 1 : Nat) : Int) := by
    rw [decVal_toDigits]
    push_cast
    omega
  have hr : InIntRange (((o + i + 1 : Nat) : Int)) := by
    unfold InIntRange
    constructor
    · omega
    · omega
  unfold goAdd
  rw [hv, wrapInt_of_inRange hr, fmtInt_ofNat]

theorem numerals_map_shift (o n : Nat) (h : ((o + n : Nat) : Int) ≤ 9223372036854775807) :
    (numerals 0 n).map (fun l => fmtInt (goAdd (decVal l) (o : Int))) = numerals o n := by
  induction n with
  | zero => simp [numerals]
  | succ n ih =>
    have hprev : ((o + n : Nat) : Int) ≤ 9223372036854775807 := by
      push_cast at h ⊢
      omega
    rw [numerals_succ, List.map_append, ih hprev, numerals_succ, List.map_cons, List.map_nil,
      shift_numeral o n (n + 1) (by omega) h]

theorem lastSeqNumber_of_Numbered {c : Str} (h : Numbered c) :
    lastSeqNumber (textLines c) = (seqCount c : Int) := by
  unfold Numbered at h
  unfold lastSeqNumber lastWhere
  rw [h]
  cases hn : seqCount c with
  | zero => rfl
  | succ n =>
    rw [numerals_getLast]
    simp only [decVal_toDigits]
    congr 1
    omega

theorem scan_id_of_Numbered {c : Str} (h : Numbered c) (hrd : readLines c = textLines c)
    (hok : ParsesOK (readLines c)) :
    (scan c).2 = (seqCount c : Int) := by
  rw [scan_eq c hok, hrd]
  exact lastSeqNumber_of_Numbered h

theorem sum_scan_id (xs : List Str) (h : ∀ c ∈ xs, (scan c).2 = (seqCount c : Int)) :
    (xs.map (fun c => (scan c).2)).sum = (((xs.map seqCount).sum : Nat) : Int) := by
  induction xs with
  | nil => rfl
  | cons x xs ih =>
    have hx := h x (List.mem_cons_self _ _)
    have hrest : ∀ c ∈ xs, (scan c).2 = (seqCount c : Int) :=
      fun c hc => h c (List.mem_cons_of_mem _ hc)
    simp only [List.map_cons, List.sum_cons, ih hrest, hx]
    push_cast
    rfl

theorem nat_sum_append_le (pre rest : List Nat) : pre.sum ≤ (pre ++ rest).sum := by
  simp

/-- Without overflow the sequence-number offset at the position after `pre`
is the number of sequence numbers of the files of `pre`. -/
theorem offsetAt_id (pre rest : List Str)
    (hnum : ∀ c ∈ pre ++ rest, Numbered c) (hrd : ∀ c ∈ pre ++ rest, readLines c = textLines c)
    (hok : ∀ c ∈ pre ++ rest, ParsesOK (readLines c))
    (hfit : ((((pre ++ rest).map seqCount).sum : Nat) : Int) ≤ 9223372036854775807) :
    (offsetAt (pre ++ rest) pre.length).2 = (((pre.map seqCount).sum : Nat) : Int) := by
  have htake : (pre ++ rest).take pre.length = pre := by simp
  have hmem : ∀ c ∈ pre, (scan c).2 = (seqCount c : Int) := fun c hc =>
    scan_id_of_Numbered (hnum c (List.mem_append_left _ hc)) (hrd c (List.mem_append_left _ hc))
      (hok c (List.mem_append_left _ hc))
  have hle : (pre.map seqCount).sum ≤ ((pre ++ rest).map seqCount).sum := by
    rw [List.map_append]
    exact nat_sum_append_le _ _
  simp only [offsetAt, htake, sum_scan_id pre hmem]
  exact wrapInt_of_inRange ⟨by omega, by omega⟩

theorem linesFrom_digits (contents : List Str)
    (hnum : ∀ c ∈ contents, Numbered c) (hrd : ∀ c ∈ contents, readLines c = textLines c)
    (hok : ∀ c ∈ contents, ParsesOK (readLines c))
    (hfit : (((contents.map seqCount).sum : Nat) : Int) ≤ 9223372036854775807) :
    ∀ rest pre, contents = pre ++ rest →
      (linesFrom contents pre.length rest).filter regexpID
        = numerals (pre.map seqCount).sum (rest.map seqCount).sum := by
  intro rest
  induction rest with
  | nil => intro pre _; simp [linesFrom, numerals]
  | cons c rest ih =>
    intro pre hsplit
    have hoff := offsetAt_id pre (c :: rest) (by rw [← hsplit]; exact hnum)
      (by rw [← hsplit]; exact hrd) (by rw [← hsplit]; exact hok) (by rw [← hsplit]; exact hfit)
    rw [← hsplit] at hoff
    have hcmem : c ∈ contents := by rw [hsplit]; simp
    have hnc : (readLines c).filter regexpID = numerals 0 (seqCount c) := by
      rw [hrd c hcmem]; exact hnum c hcmem
    have hle : (pre.map seqCount).sum + seqCount c ≤ (contents.map seqCount).sum := by
      rw [hsplit]; simp
    have hnext := ih (pre ++ [c]) (by rw [hsplit]; simp)
    simp only [List.length_append, List.length_singleton, List.map_append, List.map_cons,
      List.map_nil, List.sum_append, List.sum_cons, List.sum_nil, Nat.add_zero] at hnext
    simp only [linesFrom, List.filter_append, filter_map_writtenLine, hnc, hoff, hnext,
      List.map_cons, List.sum_cons]
    rw [numerals_map_shift _ _ (by omega), numerals_filter, numerals_append]

theorem linesFrom_no_newline (contents : List Str) (i : Nat) (rest : List Str) :
    ∀ l ∈ linesFrom contents i rest, '\n' ∉ l := by
  induction rest generalizing i with
  | nil => intro l hl; simp [linesFrom] at hl
  | cons c rest ih =>
    intro l hl
    simp only [linesFrom, List.mem_append, List.mem_map] at hl
    rcases hl with ⟨l0, hl0, rfl⟩ | h
    · exact writtenLine_no_newline _ _ (readLines_no_newline c l0 hl0)
    · exact ih _ l h

/-- The output of `Concat` as a list of lines: the lines of the first file, the
empty line the copy adds, and the writtenLine lines of the later files. -/
theorem Concat_out_lines (c0 : Str) (cs : List Str) (hcs : cs ≠ [])
    (hok : ∀ c ∈ c0 :: cs, ParsesOK (readLines c)) :
    ∃ res, Concat true ((c0 :: cs).map some) = some res ∧ res.err = none ∧
      res.out = unlines (readLines c0 ++ [[]] ++ linesFrom (c0 :: cs) 1 cs) := by
  refine ⟨_, Concat_eq c0 cs hcs hok, rfl, ?_⟩
  simp only [unlines_append, outFrom_eq_unlines]
  simp [unlines]

/-! ## The size of parsed values -/

theorem parseUintLoop_lt (l : Str) (n v : Nat) (h : parseUintLoop n l = .ok v) :
    v < (n + 1) * 10 ^ l.length := by
  induction l generalizing n with
  | nil =>
    simp only [parseUintLoop, Except.ok.injEq] at h
    subst h
    simp
  | cons c cs ih =>
    simp only [parseUintLoop] at h
    split at h
    · rename_i hd
      split at h
      · cases h
      · have h1 := ih _ h
        have hb := isDigit_bounds hd
        calc v < (n * 10 + (c.toNat - 48) + 1) * 10 ^ cs.length := h1
          _ ≤ ((n + 1) * 10) * 10 ^ cs.length := Nat.mul_le_mul_right _ (by omega)
          _ = (n + 1) * 10 ^ (cs.length + 1) := by rw [pow_succ]; ring
    · cases h

/-- A number that `Atoi` accepts has fewer digits than its text has bytes. -/
theorem Atoi_abs_lt {s : Str} {v : Int} (h : Atoi s = (v, none)) :
    -((10 ^ s.length : Nat) : Int) < v ∧ v < ((10 ^ s.length : Nat) : Int) := by
  cases s with
  | nil => simp [Atoi] at h
  | cons c cs =>
    unfold Atoi at h
    simp only at h
    generalize hb : (if (c == '+' || c == '-') = true then cs else c :: cs) = body at h
    have hbody : body.length ≤ (c :: cs).length := by
      rw [← hb]; split <;> simp
    have hpow := Nat.pow_le_pow_right (by decide : 0 < 10) hbody
    by_cases he : body.isEmpty = true
    · simp [he] at h
    · simp only [he, Bool.false_eq_true, if_false] at h
      cases hu : parseUintLoop 0 body with
      | error e =>
        rw [hu] at h
        cases e
        · simp at h
        · simp only at h
          split at h <;> simp at h
      | ok un =>
        rw [hu] at h
        have hlt := parseUintLoop_lt _ 0 un hu
        simp only [Nat.zero_add, Nat.one_mul] at hlt
        simp only at h
        split at h
        · simp at h
        · split at h
          · simp at h
          · simp only [Prod.mk.injEq, and_true] at h
            subst h
            split <;> omega

theorem atoiOrPanic_abs_lt {s : Str} {v : Int} (h : atoiOrPanic s = some v) :
    -((10 ^ s.length : Nat) : Int) < v ∧ v < ((10 ^ s.length : Nat) : Int) := by
  unfold atoiOrPanic at h
  rcases hA : Atoi s with ⟨x, e⟩
  rw [hA] at h
  cases e with
  | none =>
    simp only [Option.some.injEq] at h
    subst h
    exact Atoi_abs_lt hA
  | some e => simp at h

/-- The arithmetic of `timeStr2Milli` does not leave the range of `int` for
fields of at most three bytes, signed or not. -/
theorem millis_arith_int (h m s f : Int) (hh : -100 < h ∧ h < 100) (hm : -100 < m ∧ m < 100)
    (hs : -100 < s ∧ s < 100) (hf : -1000 < f ∧ f < 1000) :
    goAdd (goAdd (goAdd (goAdd 0 (goMul (goMul (goMul h 60) 60) 1000))
      (goMul (goMul m 60) 1000)) (goMul s 1000)) f
      = h * 3600000 + m * 60000 + s * 1000 + f := by
  have e1 : goMul h 60 = h * 60 := wrapInt_of_inRange ⟨by omega, by omega⟩
  have e2 : goMul (h * 60) 60 = h * 3600 := by
    unfold goMul
    rw [wrapInt_of_inRange ⟨by omega, by omega⟩]
    omega
  have e3 : goMul (h * 3600) 1000 = h * 3600000 := by
    unfold goMul
    rw [wrapInt_of_inRange ⟨by omega, by omega⟩]
    omega
  have e4 : goMul m 60 = m * 60 := wrapInt_of_inRange ⟨by omega, by omega⟩
  have e5 : goMul (m * 60) 1000 = m * 60000 := by
    unfold goMul
    rw [wrapInt_of_inRange ⟨by omega, by omega⟩]
    omega
  have e6 : goMul s 1000 = s * 1000 := wrapInt_of_inRange ⟨by omega, by omega⟩
  have e7 : goAdd 0 (h * 3600000) = h * 3600000 := by
    unfold goAdd
    rw [wrapInt_of_inRange ⟨by omega, by omega⟩]
    omega
  have e8 : goAdd (h * 3600000) (m * 60000) = h * 3600000 + m * 60000 :=
    wrapInt_of_inRange ⟨by omega, by omega⟩
  have e9 : goAdd (h * 3600000 + m * 60000) (s * 1000)
      = h * 3600000 + m * 60000 + s * 1000 :=
    wrapInt_of_inRange ⟨by omega, by omega⟩
  have e10 : goAdd (h * 3600000 + m * 60000 + s * 1000) f
      = h * 3600000 + m * 60000 + s * 1000 + f :=
    wrapInt_of_inRange ⟨by omega, by omega⟩
  rw [e1, e2, e3, e4, e5, e6, e7, e8, e9, e10]

/-- A parsed timestamp lies within 100 hours of zero. -/
theorem timeStr2Milli_abs_le {T : Str} {v : Int} (hlen : T.length = 12)
    (h : timeStr2Milli T = some v) : -362439999 ≤ v ∧ v ≤ 362439999 := by
  have c1 : timePreffMin.length = 3 := rfl
  have c2 : timePreffSec.length = 6 := rfl
  have c3 : timePreffMil.length = 9 := rfl
  have e1 : sliceTo T 2 = some (T.take 2) := by
    simp only [sliceTo]; rw [if_pos (by omega)]
  have e2 : (sliceFrom T timePreffMin.length).bind (sliceTo · 2) = some ((T.drop 3).take 2) := by
    simp only [sliceFrom, sliceTo, c1]
    rw [if_pos (by omega)]
    simp only [Option.some_bind, List.length_drop]
    rw [if_pos (by omega)]
  have e3 : (sliceFrom T timePreffSec.length).bind (sliceTo · 2) = some ((T.drop 6).take 2) := by
    simp only [sliceFrom, sliceTo, c2]
    rw [if_pos (by omega)]
    simp only [Option.some_bind, List.length_drop]
    rw [if_pos (by omega)]
  have e4 : sliceFrom T timePreffMil.length = some (T.drop 9) := by
    simp only [sliceFrom, c3]; rw [if_pos (by omega)]
  simp only [timeStr2Milli, e1, e2, e3, e4, Option.bind_eq_bind, Option.some_bind,
    Option.pure_def] at h
  cases h1 : atoiOrPanic (T.take 2) with
  | none => rw [h1] at h; simp at h
  | some a =>
    cases h2 : atoiOrPanic ((T.drop 3).take 2) with
    | none => rw [h1, h2] at h; simp at h
    | some b =>
      cases h3 : atoiOrPanic ((T.drop 6).take 2) with
      | none => rw [h1, h2, h3] at h; simp at h
      | some c =>
        cases h4 : atoiOrPanic (T.drop 9) with
        | none => rw [h1, h2, h3, h4] at h; simp at h
        | some d =>
          rw [h1, h2, h3, h4] at h
          simp only [Option.some_bind, Option.some.injEq] at h
          have b1 := atoiOrPanic_abs_lt h1
          have b2 := atoiOrPanic_abs_lt h2
          have b3 := atoiOrPanic_abs_lt h3
          have b4 := atoiOrPanic_abs_lt h4
          have l1 : (T.take 2).length = 2 := by simp only [List.length_take]; omega
          have l2 : ((T.drop 3).take 2).length = 2 := by
            simp only [List.length_take, List.length_drop]; omega
          have l3 : ((T.drop 6).take 2).length = 2 := by
            simp only [List.length_take, List.length_drop]; omega
          have l4 : (T.drop 9).length = 3 := by simp only [List.length_drop]; omega
          rw [l1] at b1
          rw [l2] at b2
          rw [l3] at b3
          rw [l4] at b4
          have p2 : ((10 ^ 2 : Nat) : Int) = 100 := by norm_num
          have p3 : ((10 ^ 3 : Nat) : Int) = 1000 := by norm_num
          rw [p2] at b1 b2 b3
          rw [p3] at b4
          rw [millis_arith_int a b c d b1 b2 b3 b4] at h
          omega

theorem parseTime_abs_le {l : Str} {t : srtTime} (h : parseTime l = some t) :
    (-362439999 ≤ t.start ∧ t.start ≤ 362439999) ∧
      (-362439999 ≤ t.end_ ∧ t.end_ ≤ 362439999) := by
  have c1 : timeFormat.length = 12 := rfl
  have c2 : timeSep.length = 5 := rfl
  simp only [parseTime, Option.bind_eq_bind, Option.pure_def, Option.bind_eq_some,
    Option.some.injEq, sliceTo, sliceFrom, c1, c2] at h
  obtain ⟨i, hi, f, ⟨g, hg, hf⟩, e, he, s1, hs1, s2, hs2, ht⟩ := h
  rw [← ht]
  split at hi
  · rename_i h12
    split at hg
    · rename_i h17
      cases hi
      cases hg
      split at hf
      · rename_i h29
        cases hf
        have l1 : (l.take 12).length = 12 := by simp only [List.length_take]; omega
        have l2 : ((l.drop (12 + 5)).take 12).length = 12 := by
          simp only [List.length_take]; omega
        exact ⟨timeStr2Milli_abs_le l1 hs1, timeStr2Milli_abs_le l2 hs2⟩
      · cases hf
    · cases hg
  · cases hi

theorem lastEndMillis_abs_le (ls : List Str) :
    -362439999 ≤ lastEndMillis ls ∧ lastEndMillis ls ≤ 362439999 := by
  unfold lastEndMillis
  cases lastWhere regexpTime ls with
  | none => simp
  | some l =>
    cases hp : parseTime l with
    | none => simp [hp]
    | some t => simpa [hp] using (parseTime_abs_le hp).2

/-! ## Exact sums -/

/-- When the shifted values fit an `int`, the program writes the line the
specification describes. -/
theorem writtenLine_eq_rewritten {timeOff idOff : Int} {l : Str} (h : ShiftFits timeOff idOff l) :
    writtenLine timeOff idOff l = rewritten timeOff idOff l := by
  unfold writtenLine rewritten
  by_cases h1 : regexpID l = true
  · simp only [h1, if_true, goAdd, wrapInt_of_inRange (h.1 h1)]
  · by_cases h2 : regexpTime l = true
    · simp only [h1, h2, if_true, Bool.false_eq_true, if_false]
      cases hp : parseTime l with
      | none => rfl
      | some t =>
        have hr := h.2 h2 t (by rw [hp]; rfl)
        simp only [srtTime.String, srtTime.Offset, goAdd, wrapInt_of_inRange hr.1,
          wrapInt_of_inRange hr.2]
    · simp only [h1, h2, Bool.false_eq_true, if_false]

theorem map_writtenLine_eq_rewritten {timeOff idOff : Int} {ls : List Str}
    (h : ∀ l ∈ ls, ShiftFits timeOff idOff l) :
    ls.map (writtenLine timeOff idOff) = ls.map (rewritten timeOff idOff) :=
  List.map_congr_left (fun l hl => writtenLine_eq_rewritten (h l hl))

/-! ## Lines that do not fit the buffer -/

theorem longLine_cons : longLine = 'x' :: List.replicate 4095 'x' := rfl

theorem longLine_length : longLine.length = bufSize := by
  rw [longLine, List.length_replicate]
  rfl

theorem longLine_no_newline : '\n' ∉ longLine := by
  intro h
  exact absurd (List.eq_of_mem_replicate h) (by decide)

theorem longLine_no_cr : longLine.getLast? ≠ some '\r' := by
  intro h
  exact absurd (List.eq_of_mem_replicate (List.mem_of_getLast?_eq_some h)) (by decide)

theorem regexpID_longLine (s : Str) : regexpID (longLine ++ s) = false := by
  have hx : Char.isDigit 'x' = false := by decide
  rw [longLine_cons]
  generalize List.replicate 4095 'x' = t
  simp [regexpID, hx]

theorem regexpTime_longLine (s : Str) : regexpTime (longLine ++ s) = false := by
  have hx : Char.isDigit 'x' = false := by decide
  rw [longLine_cons]
  generalize List.replicate 4095 'x' = t
  simp [regexpTime, digits1, hx]

/-- The first 4096 bytes of a longer line are delivered on their own. -/
theorem readLines_longLine (tail : Str) : readLines (longLine ++ tail) = longLine :: readLines tail :=
  readLines_fragment longLine tail longLine_length longLine_no_newline longLine_no_cr

/-- A line that neither pattern accepts leaves the limits as they are. -/
theorem limitsStep_skip (st : srtTime × Int) {x : Str} (h1 : regexpID x = false)
    (h2 : regexpTime x = false) : limitsStep st x = some st := by
  simp [limitsStep, h1, h2]

theorem limitsLoop_skip (st : srtTime × Int) (a b : List Str) {x : Str} (h1 : regexpID x = false)
    (h2 : regexpTime x = false) : limitsLoop st (a ++ x :: b) = limitsLoop st (a ++ b) := by
  induction a generalizing st with
  | nil => simp [limitsLoop, limitsStep_skip st h1 h2]
  | cons l a ih =>
    simp only [List.cons_append, limitsLoop]
    cases limitsStep st l with
    | none => rfl
    | some st1 =>
      simp only [Option.some_bind]
      exact ih st1

theorem getSRTlimits_skip (c : Str) (a b : List Str) {x : Str} (h1 : regexpID x = false)
    (h2 : regexpTime x = false) (h : readLines c = a ++ x :: b) :
    getSRTlimits (some c) =
      (limitsLoop ({ start := 0, end_ := 0, extra := [] }, 0) (a ++ b)).map
        (fun st => (st.1.end_, st.2, none)) := by
  simp only [getSRTlimits, h, limitsLoop_skip _ a b h1 h2]

theorem ParsesOK_skip {a b : List Str} {x : Str} (h1 : regexpID x = false)
    (h2 : regexpTime x = false) (h : ParsesOK (a ++ b)) : ParsesOK (a ++ x :: b) := by
  intro l hl
  simp only [List.mem_append, List.mem_cons] at hl
  rcases hl with hl | rfl | hl
  · exact h l (List.mem_append_left _ hl)
  · simp [h1, h2]
  · exact h l (List.mem_append_right _ hl)

theorem writtenLine_skip (timeOff idOff : Int) {x : Str} (h1 : regexpID x = false)
    (h2 : regexpTime x = false) : writtenLine timeOff idOff x = x := by
  simp [writtenLine, h1, h2]

/-! ## Two files -/

/-- The run of `Concat` on two files on which parsing does not fail. -/
theorem Concat_pair_eq (A B : Str) (hpa : ParsesOK (readLines A)) (hpb : ParsesOK (readLines B)) :
    Concat true [some A, some B] =
      some { err := none,
             out := unlines (readLines A) ++ ['\n']
                      ++ unlines ((readLines B).map (writtenLine (scan A).1 (scan A).2)),
             calls := [scan A] } := by
  have hok : ∀ c ∈ [A, B], ParsesOK (readLines c) := by
    intro c hc
    simp only [List.mem_cons, List.mem_singleton, List.not_mem_nil, or_false] at hc
    rcases hc with rfl | rfl
    · exact hpa
    · exact hpb
  have hrun := Concat_eq A [B] (by simp) hok
  have hget : [A, B][0]? = some A := rfl
  have hoff : offsetAt [A, B] 1 = scan A := by
    have h1 := offsetAt_succ [A, B] 0 A hget
    simp only [Nat.zero_add, offsetAt_zero] at h1
    rw [h1, scan_eq A hpa]
    simp only [goAdd, zero_add, wrapInt_of_inRange (lastEndMillis_inRange _),
      wrapInt_of_inRange (lastSeqNumber_inRange _ hpa).2]
  simp only [List.map_cons, List.map_nil] at hrun
  rw [hrun]
  simp [outFrom, callsFrom, hoff]

/-! ## The lines of the output, by the lines of the files -/

theorem fmtInt_ne_nil (v : Int) : fmtInt v ≠ [] := by
  unfold fmtInt
  split
  · simp
  · exact toDigits_ne_nil _

theorem fmtInt_no_cr (v : Int) : '\r' ∉ fmtInt v := by
  unfold fmtInt
  split
  · intro h
    rcases List.mem_cons.mp h with h1 | h1
    · exact absurd h1 (by decide)
    · exact absurd (toDigits_mem_isDigit h1) (by decide)
  · intro h
    exact absurd (toDigits_mem_isDigit h) (by decide)

theorem getLast?_append_ne_nil {a b : Str} (hb : b ≠ []) : (a ++ b).getLast? = b.getLast? := by
  rw [List.getLast?_append]
  cases hl : b.getLast? with
  | none => exact absurd (List.getLast?_eq_none_iff.mp hl) hb
  | some x => rfl

theorem millis2Str_last (t : Int) : (millis2Str t).getLast? = (fmtInt t).getLast? := by
  have hne := fmtInt_ne_nil t
  unfold millis2Str
  split
  · rw [show '0' :: '0' :: fmtInt t = ['0', '0'] ++ fmtInt t by rfl, getLast?_append_ne_nil hne]
  · split
    · rw [show '0' :: fmtInt t = ['0'] ++ fmtInt t by rfl, getLast?_append_ne_nil hne]
    · rfl

theorem millis2Str_ne_nil (t : Int) : millis2Str t ≠ [] := by
  unfold millis2Str
  split
  · simp
  · split
    · simp
    · exact fmtInt_ne_nil t

theorem timeMilli2Str_no_cr_last (x : Int) : (timeMilli2Str x).getLast? ≠ some '\r' := by
  unfold timeMilli2Str
  simp only
  rw [show ∀ (a b c d : Str), a ++ ':' :: b ++ ':' :: c ++ ',' :: d
      = (a ++ ':' :: b ++ ':' :: c ++ [',']) ++ d by intros; simp,
    getLast?_append_ne_nil (millis2Str_ne_nil _), millis2Str_last]
  intro h
  exact fmtInt_no_cr _ (List.mem_of_getLast?_eq_some h)

theorem timeMilli2Str_ne_nil (x : Int) : timeMilli2Str x ≠ [] := by
  intro h
  have := timeMilli2Str_colon x
  rw [h] at this
  simp at this

/-- A line that does not end in a carriage return is written as a line that
does not end in one. -/
theorem writtenLine_no_cr (timeOff idOff : Int) {l : Str} (h : l.getLast? ≠ some '\r') :
    (writtenLine timeOff idOff l).getLast? ≠ some '\r' := by
  unfold writtenLine
  split
  · intro hc
    exact fmtInt_no_cr _ (List.mem_of_getLast?_eq_some hc)
  · split
    · split
      · rename_i t hp
        simp only [srtTime.String, srtTime.Offset]
        by_cases he : t.extra = []
        · rw [he, List.append_nil, getLast?_append_ne_nil (timeMilli2Str_ne_nil _)]
          exact timeMilli2Str_no_cr_last _
        · rw [getLast?_append_ne_nil he, parseTime_extra hp, List.getLast?_drop]
          split
          · simp
          · exact h
      · exact h
    · exact h

/-! ## Files with a line of more than 4096 bytes -/

theorem readLines_sampleSplit : readLines sampleSplit = [longLine, "123".toList] := by
  unfold sampleSplit
  rw [readLines_longLine]
  have h : readLines "123\n".toList = ["123".toList] := by decide
  rw [h]

theorem readLines_sampleSplitID :
    readLines sampleSplitID = ["4".toList, longLine, "123".toList] := by
  have h := readLines_terminated "4".toList sampleSplit (by decide) (by decide)
  have hd : dropCR "4".toList = "4".toList := by decide
  rw [hd, readLines_sampleSplit] at h
  exact h

theorem readLines_sampleSplitOne :
    readLines sampleSplitOne = ["1".toList, longLine, "123".toList] := by
  have h := readLines_terminated "1".toList sampleSplit (by decide) (by decide)
  have hd : dropCR "1".toList = "1".toList := by decide
  rw [hd, readLines_sampleSplit] at h
  exact h

theorem readLines_sampleSplitNeg :
    readLines sampleSplitNeg = [longLine, "00:00:00,000 --> -1:00:00,000".toList] := by
  unfold sampleSplitNeg
  rw [readLines_longLine]
  have h : readLines "00:00:00,000 --> -1:00:00,000\n".toList
      = ["00:00:00,000 --> -1:00:00,000".toList] := by decide
  rw [h]

/-- The lines of a text that starts with a line of 4096 times `x` and more. -/
theorem textLines_longLine (s rest : Str) (hs : '\n' ∉ s) (hne : s ≠ [])
    (hcr : s.getLast? ≠ some '\r') :
    textLines (longLine ++ (s ++ '\n' :: rest)) = (longLine ++ s) :: textLines rest := by
  have hno : '\n' ∉ longLine ++ s := by
    intro h
    rcases List.mem_append.mp h with h1 | h1
    · exact longLine_no_newline h1
    · exact hs h1
  have hlast : (longLine ++ s).getLast? ≠ some '\r' := by
    rw [getLast?_append_ne_nil hne]; exact hcr
  rw [← List.append_assoc, textLines_terminated _ rest hno, stripCR_of_no_cr hlast]

theorem textLines_sampleSplit : textLines sampleSplit = [longLine ++ "123".toList] :=
  textLines_longLine "123".toList [] (by decide) (by decide) (by decide)

theorem textLines_sampleSplitOne :
    textLines sampleSplitOne = ["1".toList, longLine ++ "123".toList] := by
  have h := textLines_terminated "1".toList sampleSplit (by decide)
  have hd : stripCR "1".toList = "1".toList := by decide
  rw [hd, textLines_sampleSplit] at h
  exact h

theorem textLines_sampleSplitNeg :
    textLines sampleSplitNeg = [longLine ++ "00:00:00,000 --> -1:00:00,000".toList] :=
  textLines_longLine "00:00:00,000 --> -1:00:00,000".toList [] (by decide) (by decide) (by decide)

theorem ParsesOK_sampleSplit : ParsesOK (readLines sampleSplit) := by
  rw [readLines_sampleSplit]
  exact @ParsesOK_skip [] ["123".toList] longLine
    (by simpa using regexpID_longLine []) (by simpa using regexpTime_longLine []) (by decide)

theorem ParsesOK_sampleSplitID : ParsesOK (readLines sampleSplitID) := by
  rw [readLines_sampleSplitID]
  exact @ParsesOK_skip ["4".toList] ["123".toList] longLine
    (by simpa using regexpID_longLine []) (by simpa using regexpTime_longLine []) (by decide)

theorem ParsesOK_sampleSplitOne : ParsesOK (readLines sampleSplitOne) := by
  rw [readLines_sampleSplitOne]
  exact @ParsesOK_skip ["1".toList] ["123".toList] longLine
    (by simpa using regexpID_longLine []) (by simpa using regexpTime_longLine []) (by decide)

theorem ParsesOK_sampleSplitNeg : ParsesOK (readLines sampleSplitNeg) := by
  rw [readLines_sampleSplitNeg]
  exact @ParsesOK_skip [] ["00:00:00,000 --> -1:00:00,000".toList] longLine
    (by simpa using regexpID_longLine []) (by simpa using regexpTime_longLine []) (by decide)

theorem getSRTlimits_sampleSplitID : getSRTlimits (some sampleSplitID) = some (0, 123, none) := by
  rw [getSRTlimits_skip sampleSplitID ["4".toList] ["123".toList]
    (by simpa using regexpID_longLine []) (by simpa using regexpTime_longLine [])
    readLines_sampleSplitID]
  decide

theorem getSRTlimits_sampleSplitOne : getSRTlimits (some sampleSplitOne) = some (0, 123, none) := by
  rw [getSRTlimits_skip sampleSplitOne ["1".toList] ["123".toList]
    (by simpa using regexpID_longLine []) (by simpa using regexpTime_longLine [])
    readLines_sampleSplitOne]
  decide

theorem getSRTlimits_sampleSplitNeg :
    getSRTlimits (some sampleSplitNeg) = some (-3600000, 0, none) := by
  rw [getSRTlimits_skip sampleSplitNeg [] ["00:00:00,000 --> -1:00:00,000".toList]
    (by simpa using regexpID_longLine []) (by simpa using regexpTime_longLine [])
    readLines_sampleSplitNeg]
  decide

theorem scan_of_getSRTlimits {c : Str} {t id : Int} (h : getSRTlimits (some c) = some (t, id, none)) :
    scan c = (t, id) := by
  simp [scan, h]

/-! ## The run of `Concat` by the lines of the files -/

theorem unlines_pair (x y : Str) : unlines [x, y] = x ++ ('\n' :: y ++ ['\n']) := by
  simp [unlines]

theorem writtenLine_longLine (timeOff idOff : Int) : writtenLine timeOff idOff longLine = longLine :=
  writtenLine_skip timeOff idOff (by simpa using regexpID_longLine [])
    (by simpa using regexpTime_longLine [])

theorem unlines_cons (x : Str) (ls : List Str) : unlines (x :: ls) = x ++ '\n' :: unlines ls := by
  simp [unlines]

theorem linesFrom_no_cr (contents : List Str) (i : Nat) (rest : List Str)
    (h : ∀ c ∈ rest, ∀ l ∈ readLines c, l.getLast? ≠ some '\r') :
    ∀ l ∈ linesFrom contents i rest, l.getLast? ≠ some '\r' := by
  induction rest generalizing i with
  | nil => intro l hl; simp [linesFrom] at hl
  | cons c rest ih =>
    intro l hl
    simp only [linesFrom, List.mem_append, List.mem_map] at hl
    rcases hl with ⟨l0, hl0, rfl⟩ | hl
    · exact writtenLine_no_cr _ _ (h c (List.mem_cons_self _ _) l0 hl0)
    · exact ih _ (fun c1 h1 => h c1 (List.mem_cons_of_mem _ h1)) l hl

theorem WellFormed_longLine (s : Str) : WellFormed [longLine ++ s] := by
  intro l hl
  rw [List.mem_singleton] at hl
  subst hl
  simp [regexpID_longLine, regexpTime_longLine]

/-- The tail of a line that does not fit the buffer is classified on its own:
after 4096 times `x` the bytes `1:2:3` are a time-range line too short to
parse, and `Concat` panics, although no line of the file is a time-range
line. -/
theorem Concat_fragment_panics :
    textLines (longLine ++ "1:2:3\n".toList) = [longLine ++ "1:2:3".toList] ∧
    WellFormed (textLines (longLine ++ "1:2:3\n".toList)) ∧
    readLines (longLine ++ "1:2:3\n".toList) = [longLine, "1:2:3".toList] ∧
    Concat true [some sampleA, some (longLine ++ "1:2:3\n".toList)] = none := by
  have ht : textLines (longLine ++ "1:2:3\n".toList) = [longLine ++ "1:2:3".toList] :=
    textLines_longLine "1:2:3".toList [] (by decide) (by decide) (by decide)
  have hrd : readLines (longLine ++ "1:2:3\n".toList) = [longLine, "1:2:3".toList] := by
    rw [readLines_longLine]
    have h : readLines "1:2:3\n".toList = ["1:2:3".toList] := by decide
    rw [h]
  have hadd : ∀ w t o, addSRToffset w (some (longLine ++ "1:2:3\n".toList)) t o = none := by
    intro w t o
    have hmem : "1:2:3".toList ∈ readLines (longLine ++ "1:2:3\n".toList) := by
      rw [hrd]; simp
    simp only [addSRToffset, offsetLoop_panics t o _ w hmem (by decide) (by decide),
      Option.map_none']
  have hlim : getSRTlimits (some sampleA) = some (2000, 1, none) := by decide
  refine ⟨ht, ?_, hrd, ?_⟩
  · rw [ht]; exact WellFormed_longLine _
  · generalize longLine ++ "1:2:3\n".toList = X at hadd
    simp [Concat, concatLoop, hlim, hadd]

/-- A line end `"\r\n"` that straddles the end of the buffer: the 4095 bytes
before it are delivered on their own, the carriage return is put back, and the
next call delivers an empty line. -/
theorem readLines_straddle (pre rest : Str) (hlen : pre.length + 1 = bufSize) (hl : '\n' ∉ pre) :
    ReadLine (pre ++ '\r' :: '\n' :: rest) = some (pre, '\r' :: '\n' :: rest) ∧
    readLines (pre ++ '\r' :: '\n' :: rest) = pre :: [] :: readLines rest := by
  have hb : bufSize = 4096 := rfl
  have hwin : (pre ++ '\r' :: '\n' :: rest).take bufSize = pre ++ ['\r'] := by
    rw [show pre ++ '\r' :: '\n' :: rest = (pre ++ ['\r']) ++ '\n' :: rest by simp]
    exact List.take_left' (by simp only [List.length_append, List.length_singleton]; omega)
  have hno : '\n' ∉ pre ++ ['\r'] := by
    intro h
    rcases List.mem_append.mp h with h1 | h1
    · exact hl h1
    · simp at h1
  have hany := any_newline_false hno
  have hfull : bufSize ≤ (pre ++ '\r' :: '\n' :: rest).length := by
    simp only [List.length_append, List.length_cons]; omega
  have hdrop : (pre ++ '\r' :: '\n' :: rest).drop (bufSize - 1) = '\r' :: '\n' :: rest :=
    List.drop_left' (by omega)
  have hcall : ReadLine (pre ++ '\r' :: '\n' :: rest) = some (pre, '\r' :: '\n' :: rest) := by
    cases hx : pre ++ '\r' :: '\n' :: rest with
    | nil => simp at hx
    | cons c cs =>
      rw [hx] at hwin hfull hdrop
      simp only [ReadLine, hwin, hany, Bool.false_eq_true, if_false, hfull, if_true,
        List.getLast?_concat, List.dropLast_concat, hdrop]
  refine ⟨hcall, ?_⟩
  have hnext := readLines_terminated ['\r'] rest (by decide) (by decide)
  rw [readLines_cons hcall]
  exact congrArg _ hnext

/-! ## The claims -/

/-- C1 (counterexample): two pairs of files on which parsing does not fail.
In the first pair file A ends with the sequence number 2^63 - 2 and file B has
the sequence numbers 1 and 2: for the 2 of B, Concat writes
-9223372036854775808, which is not the decimal text of 2 + (2^63 - 2).  In the
second pair file B is one line, 4096 times x followed by 123, which is no
sequence-number line: Concat writes two lines for it, the 4096 x and 124. -/
theorem Concat_two_files_other_text :
    (ParsesOK (textLines sampleBig) ∧ ParsesOK (textLines samplePair) ∧
      textLines samplePair = ["1".toList, "2".toList] ∧
      lastSeqNumber (textLines sampleBig) = 9223372036854775806 ∧
      fmtInt ((decVal "2".toList : Int) + 9223372036854775806) = "9223372036854775808".toList ∧
      Concat true [some sampleBig, some samplePair] =
        some { err := none,
               out := "9223372036854775806\n\n9223372036854775807\n-9223372036854775808\n".toList,
               calls := [(0, 9223372036854775806)] }) ∧
    (ParsesOK (textLines sampleA) ∧ ParsesOK (textLines sampleSplit) ∧
      textLines sampleSplit = [longLine ++ "123".toList] ∧
      regexpID (longLine ++ "123".toList) = false ∧
      regexpTime (longLine ++ "123".toList) = false ∧
      Concat true [some sampleA, some sampleSplit] =
        some { err := none,
               out := "1\n00:00:01,000 --> 00:00:02,000\nHello\n\n".toList
                        ++ (longLine ++ "\n124\n".toList),
               calls := [(2000, 1)] }) := by
  refine ⟨by decide, by decide, ?_, textLines_sampleSplit, regexpID_longLine _,
    regexpTime_longLine _, ?_⟩
  · rw [textLines_sampleSplit]
    exact @ParsesOK_skip [] [] (longLine ++ "123".toList) (regexpID_longLine _)
      (regexpTime_longLine _) (by decide)
  · rw [Concat_pair_eq sampleA sampleSplit (by decide) ParsesOK_sampleSplit,
      readLines_sampleSplit, show scan sampleA = (2000, 1) by decide]
    simp only [List.map_cons, List.map_nil, writtenLine_longLine, unlines_pair]
    rw [show writtenLine 2000 1 "123".toList = "124".toList by decide,
      show unlines (readLines sampleA) ++ ['\n']
        = "1\n00:00:01,000 --> 00:00:02,000\nHello\n\n".toList by decide,
      show '\n' :: "124".toList ++ ['\n'] = "\n124\n".toList by decide]

/-- C1 (amended): for two input files A and B with lines `la` and `lb`, all
shorter than 4095 bytes, on which parsing does not fail and in which the value
of every sequence-number line of B plus the value of the last sequence-number
line of A fits an int, Concat returns a nil error and its output is the lines
of A, each followed by a newline, one more newline, and the lines of B in
order, each followed by a newline, where a sequence-number line with value n is
the decimal text of n plus the value of the last sequence-number line of A, and
a time-range line has both timestamps shifted by the end time of the last
time-range line of A. -/
theorem Concat_two_files (A B : Str) (la lb : List Str)
    (hA : textLines A = la) (hB : textLines B = lb)
    (hsa : ∀ l ∈ la, l.length < 4095) (hsb : ∀ l ∈ lb, l.length < 4095)
    (hpa : ParsesOK la) (hpb : ParsesOK lb)
    (hfit : ∀ l ∈ lb, regexpID l = true →
      (decVal l : Int) + lastSeqNumber la ≤ 9223372036854775807) :
    Concat true [some A, some B] =
      some { err := none,
             out := unlines la ++ ['\n']
                      ++ unlines (lb.map (rewritten (lastEndMillis la) (lastSeqNumber la))),
             calls := [(lastEndMillis la, lastSeqNumber la)] } := by
  subst hA hB
  have hrdA : readLines A = textLines A := readLines_eq_textLines A hsa
  have hrdB : readLines B = textLines B := readLines_eq_textLines B hsb
  have hpa1 : ParsesOK (readLines A) := by rw [hrdA]; exact hpa
  have hpb1 : ParsesOK (readLines B) := by rw [hrdB]; exact hpb
  have hscan : scan A = (lastEndMillis (textLines A), lastSeqNumber (textLines A)) := by
    rw [scan_eq A hpa1, hrdA]
  have hfits : ∀ l ∈ textLines B,
      ShiftFits (lastEndMillis (textLines A)) (lastSeqNumber (textLines A)) l := by
    intro l hl
    constructor
    · intro hid
      have h1 := hfit l hl hid
      have h2 := (lastSeqNumber_inRange _ hpa).1
      have h3 : (0 : Int) ≤ (decVal l : Int) := Int.ofNat_nonneg _
      exact ⟨by omega, h1⟩
    · intro _ t hmem
      have hp : parseTime l = some t := hmem
      have b1 := parseTime_abs_le hp
      have b2 := lastEndMillis_abs_le (textLines A)
      exact ⟨⟨by omega, by omega⟩, ⟨by omega, by omega⟩⟩
  rw [Concat_pair_eq A B hpa1 hpb1, hscan, hrdA, hrdB, map_writtenLine_eq_rewritten hfits]

theorem Concat_two_files_witness :
    Concat true [some sampleA, some sampleB] =
      some { err := none,
             out := "1\n00:00:01,000 --> 00:00:02,000\nHello\n\n2\n00:00:02,500 --> 00:00:03,500\nWorld\n".toList,
             calls := [(2000, 1)] } :=
  (Concat_two_files sampleA sampleB
    ["1".toList, "00:00:01,000 --> 00:00:02,000".toList, "Hello".toList]
    ["1".toList, "00:00:00,500 --> 00:00:01,500".toList, "World".toList]
    (by decide) (by decide) (by decide) (by decide) (by decide) (by decide) (by decide)).trans
    (by decide)

/-- C2: for a list of at least two input files on which parsing does not fail,
Concat calls offset-rewrite once for each position i >= 1, and the offsets it
passes for position i are the component-wise sums, over the positions j < i, of
the limit-scan results of file j: sums of Go ints, that is the exact sums
reduced to the 64-bit range, and the exact sums themselves when these fit an
int. -/
theorem Concat_offsets_are_sums (contents : List Str) (hlen : 2 ≤ contents.length)
    (hok : ∀ c ∈ contents, ParsesOK (readLines c)) :
    ∃ res, Concat true (contents.map some) = some res ∧ res.err = none ∧
      res.calls.length = contents.length - 1 ∧
      ∀ i, 1 ≤ i → i < contents.length →
        res.calls[i - 1]? =
          some (wrapInt ((contents.take i).map (fun c => (scan c).1)).sum,
                wrapInt ((contents.take i).map (fun c => (scan c).2)).sum) ∧
        (InIntRange ((contents.take i).map (fun c => (scan c).1)).sum →
          InIntRange ((contents.take i).map (fun c => (scan c).2)).sum →
          res.calls[i - 1]? =
            some (((contents.take i).map (fun c => (scan c).1)).sum,
                  ((contents.take i).map (fun c => (scan c).2)).sum)) := by
  cases contents with
  | nil => simp at hlen
  | cons c0 cs =>
    have hcs : cs ≠ [] := by
      intro h; subst h; simp at hlen
    refine ⟨_, Concat_eq c0 cs hcs hok, rfl, ?_, ?_⟩
    · simp [callsFrom_length]
    · intro i hi1 hi2
      simp only [List.length_cons] at hi2
      have hcall := callsFrom_getElem? (c0 :: cs) 1 cs (i - 1) (by omega)
      rw [show 1 + (i - 1) = i by omega] at hcall
      refine ⟨hcall, fun h1 h2 => ?_⟩
      rw [hcall]
      simp only [offsetAt, wrapInt_of_inRange h1, wrapInt_of_inRange h2]

theorem Concat_offsets_are_sums_witness :
    (2 ≤ [sampleA, sampleC, sampleB].length ∧
      (∀ c ∈ [sampleA, sampleC, sampleB], ParsesOK (readLines c)) ∧
      ∃ res, Concat true ([sampleA, sampleC, sampleB].map some) = some res ∧
        res.calls = [(2000, 1), (6250, 8)]) ∧
    (2 ≤ [sampleSplitID, sampleB].length ∧
      (∀ c ∈ [sampleSplitID, sampleB], ParsesOK (readLines c)) ∧
      getSRTlimits (some sampleSplitID) = some (0, 123, none) ∧
      ∃ res, Concat true ([sampleSplitID, sampleB].map some) = some res ∧
        res.calls[0]? = some (0, 123)) := by
  have hok2 : ∀ c ∈ [sampleSplitID, sampleB], ParsesOK (readLines c) := by
    intro c hc
    simp only [List.mem_cons, List.mem_singleton, List.not_mem_nil, or_false] at hc
    rcases hc with rfl | rfl
    · exact ParsesOK_sampleSplitID
    · decide
  refine ⟨⟨by decide, by decide, ?_⟩, ⟨by decide, hok2, getSRTlimits_sampleSplitID, ?_⟩⟩
  · obtain ⟨res, hrun, _, _, _⟩ :=
      Concat_offsets_are_sums [sampleA, sampleC, sampleB] (by decide) (by decide)
    refine ⟨res, hrun, ?_⟩
    have hval : Concat true ([sampleA, sampleC, sampleB].map some) =
        some { err := none,
               out := ("1\n00:00:01,000 --> 00:00:02,000\nHello\n\n"
                        ++ "8\n00:00:05,000 --> 00:00:06,250 X1:40\n12 monkeys\n"
                        ++ "9\n00:00:06,750 --> 00:00:07,750\nWorld\n").toList,
               calls := [(2000, 1), (6250, 8)] } := by decide
    rw [hval] at hrun
    cases hrun
    rfl
  · obtain ⟨res, hrun, _, _, hcalls⟩ :=
      Concat_offsets_are_sums [sampleSplitID, sampleB] (by decide) hok2
    refine ⟨res, hrun, ?_⟩
    have h1 := (hcalls 1 (Nat.le_refl 1) (by decide)).1
    have hs := scan_of_getSRTlimits getSRTlimits_sampleSplitID
    simp only [List.take_succ_cons, List.take_zero, List.map_cons, List.map_nil, List.sum_cons,
      List.sum_nil, hs, Nat.sub_self] at h1
    rw [h1]
    decide

/-- C3: a call of Concat with fewer than two input paths whose output file can
be created returns a nil error and writes nothing, whatever the inputs are and
whether or not they can be opened. -/
theorem Concat_fewer_than_two_files (files : List File) (h : files.length < 2) :
    Concat true files = some { err := none, out := [], calls := [] } := by
  simp [Concat, h]

theorem Concat_fewer_than_two_files_witness :
    [(none : File)].length < 2 ∧
      Concat true [none] = some { err := none, out := [], calls := [] } :=
  ⟨by decide, Concat_fewer_than_two_files [none] (by decide)⟩

/-- C4: evaluation of Concat on two input files of which the first can be opened
and the last cannot: the error returned is nil, because the result of
addSRToffset is discarded. -/
theorem Concat_last_file_missing :
    Concat true [some sampleA, none]
      = some { err := none,
               out := "1\n00:00:01,000 --> 00:00:02,000\nHello\n\n".toList,
               calls := [(2000, 1)] } := by
  decide

/-- C5 (counterexample): the well-formed timestamp 00:60:00,000 is parsed to
3 600 000 milliseconds, which is rendered as 01:00:00,000. -/
theorem timestamp_roundtrip_fails_at_minute_60 :
    isTimestamp "00:60:00,000".toList = true ∧
      (timeStr2Milli "00:60:00,000".toList).map timeMilli2Str = some "01:00:00,000".toList ∧
      "01:00:00,000".toList ≠ "00:60:00,000".toList := by
  decide

/-- C5 (amended): for every well-formed timestamp HH:MM:SS,mmm whose minute
field and second field are below 60, rendering the parsed millisecond count
gives back the timestamp. -/
theorem timestamp_roundtrip (s : Str) (hs : isTimestamp s = true)
    (hmin : decVal ((s.drop 3).take 2) < 60) (hsec : decVal ((s.drop 6).take 2) < 60) :
    (timeStr2Milli s).map timeMilli2Str = some s := by
  obtain ⟨h1, h2, m1, m2, s1, s2, f1, f2, f3, rfl, a1, a2, a4, a5, a7, a8, a10, a11, a12⟩ :=
    isTimestamp_shape hs
  simp only [List.drop_succ_cons, List.drop_zero, List.take_succ_cons, List.take_zero] at hmin hsec
  have b1 := isDigit_bounds a1
  have b2 := isDigit_bounds a2
  have b3 := isDigit_bounds a4
  have b4 := isDigit_bounds a5
  have b5 := isDigit_bounds a7
  have b6 := isDigit_bounds a8
  have b7 := isDigit_bounds a10
  have b8 := isDigit_bounds a11
  have b9 := isDigit_bounds a12
  rw [timeStr2Milli_fields h1 h2 ':' m1 m2 ':' s1 s2 ',' f1 f2 f3 a1 a2 a4 a5 a7 a8 a10 a11 a12]
  rw [decVal_two] at hmin hsec
  rw [decVal_two, decVal_two, decVal_two, decVal_three]
  simp only [Option.map_some', Option.some.injEq]
  rw [timeMilli2Str_nat _ (by omega)]
  have q1 : ((10 * (h1.toNat - 48) + (h2.toNat - 48)) * 3600000
      + (10 * (m1.toNat - 48) + (m2.toNat - 48)) * 60000
      + (10 * (s1.toNat - 48) + (s2.toNat - 48)) * 1000
      + (100 * (f1.toNat - 48) + 10 * (f2.toNat - 48) + (f3.toNat - 48))) / 1000 / 60 / 60
      = 10 * (h1.toNat - 48) + (h2.toNat - 48) := by omega
  have q2 : ((10 * (h1.toNat - 48) + (h2.toNat - 48)) * 3600000
      + (10 * (m1.toNat - 48) + (m2.toNat - 48)) * 60000
      + (10 * (s1.toNat - 48) + (s2.toNat - 48)) * 1000
      + (100 * (f1.toNat - 48) + 10 * (f2.toNat - 48) + (f3.toNat - 48))) / 1000 / 60 % 60
      = 10 * (m1.toNat - 48) + (m2.toNat - 48) := by omega
  have q3 : ((10 * (h1.toNat - 48) + (h2.toNat - 48)) * 3600000
      + (10 * (m1.toNat - 48) + (m2.toNat - 48)) * 60000
      + (10 * (s1.toNat - 48) + (s2.toNat - 48)) * 1000
      + (100 * (f1.toNat - 48) + 10 * (f2.toNat - 48) + (f3.toNat - 48))) / 1000 % 60
      = 10 * (s1.toNat - 48) + (s2.toNat - 48) := by omega
  have q4 : ((10 * (h1.toNat - 48) + (h2.toNat - 48)) * 3600000
      + (10 * (m1.toNat - 48) + (m2.toNat - 48)) * 60000
      + (10 * (s1.toNat - 48) + (s2.toNat - 48)) * 1000
      + (100 * (f1.toNat - 48) + 10 * (f2.toNat - 48) + (f3.toNat - 48))) % 1000
      = 100 * (f1.toNat - 48) + 10 * (f2.toNat - 48) + (f3.toNat - 48) := by omega
  rw [q1, q2, q3, q4,
    time2Str_two_digits _ (by omega) _ (by omega), time2Str_two_digits _ (by omega) _ (by omega),
    time2Str_two_digits _ (by omega) _ (by omega),
    millis2Str_three_digits _ (by omega) _ (by omega) _ (by omega),
    digitChar_of_isDigit a1, digitChar_of_isDigit a2, digitChar_of_isDigit a4,
    digitChar_of_isDigit a5, digitChar_of_isDigit a7, digitChar_of_isDigit a8,
    digitChar_of_isDigit a10, digitChar_of_isDigit a11, digitChar_of_isDigit a12]
  rfl

theorem timestamp_roundtrip_witness :
    isTimestamp "99:59:59,999".toList = true ∧
    decVal (("99:59:59,999".toList.drop 3).take 2) < 60 ∧
    decVal (("99:59:59,999".toList.drop 6).take 2) < 60 ∧
    (timeStr2Milli "99:59:59,999".toList).map timeMilli2Str = some "99:59:59,999".toList :=
  ⟨by decide, by decide, by decide,
   timestamp_roundtrip "99:59:59,999".toList (by decide) (by decide) (by decide)⟩


/-- C6 (counterexample): two files on which parsing does not fail.  For the
file with the one line 1 and idOff = 2^63 - 1 addSRToffset writes
-9223372036854775808, which is not the decimal text of 1 + (2^63 - 1).  For the
file of one line, 4096 times x followed by 123, which neither pattern accepts,
addSRToffset with idOff = 1 does not write the line itself but two lines, the
4096 x and 124. -/
theorem addSRToffset_other_text :
    (textLines sampleOne = ["1".toList] ∧ ParsesOK (textLines sampleOne) ∧
      fmtInt ((decVal "1".toList : Int) + 9223372036854775807) = "9223372036854775808".toList ∧
      addSRToffset [] (some sampleOne) 0 9223372036854775807
        = some ("-9223372036854775808\n".toList, none)) ∧
    (textLines sampleSplit = [longLine ++ "123".toList] ∧ ParsesOK (textLines sampleSplit) ∧
      regexpID (longLine ++ "123".toList) = false ∧
      regexpTime (longLine ++ "123".toList) = false ∧
      addSRToffset [] (some sampleSplit) 0 1 = some (longLine ++ "\n124\n".toList, none)) := by
  refine ⟨by decide, textLines_sampleSplit, ?_, regexpID_longLine _, regexpTime_longLine _, ?_⟩
  · rw [textLines_sampleSplit]
    exact @ParsesOK_skip [] [] (longLine ++ "123".toList) (regexpID_longLine _)
      (regexpTime_longLine _) (by decide)
  · rw [addSRToffset_eq [] sampleSplit 0 1 ParsesOK_sampleSplit, readLines_sampleSplit]
    simp only [List.map_cons, List.map_nil, writtenLine_longLine, unlines_pair, List.nil_append]
    rw [show writtenLine 0 1 "123".toList = "124".toList by decide,
      show '\n' :: "124".toList ++ ['\n'] = "\n124\n".toList by decide]

/-- C6 (amended): for an input file with the lines `ls`, all shorter than 4095
bytes, on which parsing does not fail, and for every pair of offsets with which
the shifted values of the lines fit an int, addSRToffset returns a nil error and
appends to the writer exactly the rewritten lines, each followed by a newline:
the decimal text of value + idOff for a line of digits, the rendering of the
time range with start and end increased by timeOff and the trailing text
unchanged for a time-range line, the line itself otherwise. -/
theorem addSRToffset_writes (w content : Str) (ls : List Str) (timeOff idOff : Int)
    (hlines : textLines content = ls) (hshort : ∀ l ∈ ls, l.length < 4095)
    (hparse : ParsesOK ls) (hfit : ∀ l ∈ ls, ShiftFits timeOff idOff l) :
    addSRToffset w (some content) timeOff idOff =
      some (w ++ unlines (ls.map (rewritten timeOff idOff)), none) := by
  subst hlines
  have hrd : readLines content = textLines content := readLines_eq_textLines content hshort
  rw [addSRToffset_eq w content timeOff idOff (by rw [hrd]; exact hparse), hrd,
    map_writtenLine_eq_rewritten hfit]

theorem addSRToffset_writes_witness :
    addSRToffset [] (some sampleC) 3600000 41 =
      some ("48\n01:00:03,000 --> 01:00:04,250 X1:40\n12 monkeys\n".toList, none) :=
  (addSRToffset_writes [] sampleC
    ["7".toList, "00:00:03,000 --> 00:00:04,250 X1:40".toList, "12 monkeys".toList]
    3600000 41 (by decide) (by decide) (by decide) (by decide)).trans (by decide)

/-- C7: copySRTLines writes every line of the file followed by a newline and
then one more newline, written in the iteration in which ReadLine reports the
end of the file; on the file "Hello\n" it writes "Hello\n\n". -/
theorem copySRTLines_extra_newline :
    (∀ (w content : Str),
        copySRTLines w (some content) = (w ++ unlines (readLines content) ++ ['\n'], none)) ∧
      copySRTLines [] (some "Hello\n".toList) = ("Hello\n\n".toList, none) := by
  refine ⟨fun w content => ?_, by decide⟩
  simp [copySRTLines, copyLoop_eq]


/-- C10 (counterexample): two lists of three files on which parsing does not
fail.  In the first the second file has a time-range line with a signed hour
field: its limit scan returns -3 600 000 milliseconds, and the millisecond
offset Concat uses drops from 2000 for the second file to -3 598 000 for the
third.  In the second list the second file is one line, 4096 times x followed
by the text of such a time range, so that no line of the file is a time-range
line: the limit scan returns -3 600 000 milliseconds all the same, and the
offset drops in the same way. -/
theorem Concat_offset_decreases :
    ((∀ c ∈ [sampleA, sampleNeg, sampleB], ParsesOK (readLines c)) ∧
      getSRTlimits (some sampleNeg) = some (-3600000, 1, none) ∧
      (Concat true ([sampleA, sampleNeg, sampleB].map some)).map (fun r => (r.err, r.calls))
        = some (none, [(2000, 1), (-3598000, 2)])) ∧
    ((∀ c ∈ [sampleA, sampleSplitNeg, sampleB], WellFormed (textLines c)) ∧
      (∀ c ∈ [sampleA, sampleSplitNeg, sampleB], ParsesOK (readLines c)) ∧
      textLines sampleSplitNeg = [longLine ++ "00:00:00,000 --> -1:00:00,000".toList] ∧
      regexpTime (longLine ++ "00:00:00,000 --> -1:00:00,000".toList) = false ∧
      getSRTlimits (some sampleSplitNeg) = some (-3600000, 0, none) ∧
      (Concat true ([sampleA, sampleSplitNeg, sampleB].map some)).map (fun r => (r.err, r.calls))
        = some (none, [(2000, 1), (-3598000, 1)])) := by
  have hok : ∀ c ∈ [sampleA, sampleSplitNeg, sampleB], ParsesOK (readLines c) := by
    intro c hc
    simp only [List.mem_cons, List.mem_singleton, List.not_mem_nil, or_false] at hc
    rcases hc with rfl | rfl | rfl
    · decide
    · exact ParsesOK_sampleSplitNeg
    · decide
  refine ⟨by decide, ?_, hok, textLines_sampleSplitNeg, regexpTime_longLine _,
    getSRTlimits_sampleSplitNeg, ?_⟩
  · intro c hc
    simp only [List.mem_cons, List.mem_singleton, List.not_mem_nil, or_false] at hc
    rcases hc with rfl | rfl | rfl
    · decide
    · rw [textLines_sampleSplitNeg]; exact WellFormed_longLine _
    · decide
  · have hrun := Concat_eq sampleA [sampleSplitNeg, sampleB] (by simp) hok
    have s1 : scan sampleA = (2000, 1) := by decide
    have s2 := scan_of_getSRTlimits getSRTlimits_sampleSplitNeg
    rw [hrun]
    simp only [Option.map_some', callsFrom, offsetAt, List.take_succ_cons, List.take_zero,
      List.map_cons, List.map_nil, List.sum_cons, List.sum_nil, s1, s2]
    decide

/-- C10 (amended): for a list of input files whose lines are shorter than 4095
bytes, in which every time-range line is of the form
HH:MM:SS,mmm --> HH:MM:SS,mmm with digit fields and every sequence number fits
an int, and in which no accumulated sum of limits exceeds the largest int,
every limit-scan result is >= 0 in both components and the offsets Concat uses
are non-decreasing from each file to the next. -/
theorem Concat_offsets_monotone (contents : List Str) (hlen : 2 ≤ contents.length)
    (hshort : ∀ c ∈ contents, ShortLines c)
    (hwf : ∀ c ∈ contents, WellFormed (textLines c))
    (hT : ∀ i, i < contents.length →
      ((contents.take i).map (fun c => (scan c).1)).sum ≤ 9223372036854775807)
    (hI : ∀ i, i < contents.length →
      ((contents.take i).map (fun c => (scan c).2)).sum ≤ 9223372036854775807) :
    ∃ res, Concat true (contents.map some) = some res ∧
      (∀ c ∈ contents, 0 ≤ (scan c).1 ∧ 0 ≤ (scan c).2) ∧
      ∀ i, 1 ≤ i → i + 1 < contents.length →
        ∃ a b, res.calls[i - 1]? = some a ∧ res.calls[i]? = some b ∧ a.1 ≤ b.1 ∧ a.2 ≤ b.2 := by
  have hwf1 : ∀ c ∈ contents, WellFormed (readLines c) := fun c hc => by
    rw [readLines_eq_textLines c (hshort c hc)]; exact hwf c hc
  have hT0 : ∀ c ∈ contents, 0 ≤ (scan c).1 := fun c hc => (scan_nonneg (hwf1 c hc)).1.1
  have hI0 : ∀ c ∈ contents, 0 ≤ (scan c).2 := fun c hc => (scan_nonneg (hwf1 c hc)).2
  cases hcont : contents with
  | nil => rw [hcont] at hlen; simp at hlen
  | cons c0 cs =>
    have hcs : cs ≠ [] := by
      intro h; rw [hcont, h] at hlen; simp at hlen
    rw [← hcont]
    have hrun := Concat_eq c0 cs hcs
      (fun c hc => ParsesOK_of_WellFormed (hwf1 c (by rw [hcont]; exact hc)))
    rw [← hcont] at hrun
    refine ⟨_, hrun, fun c hc => ⟨hT0 c hc, hI0 c hc⟩, ?_⟩
    intro i hi1 hi2
    have hlen2 : contents.length = cs.length + 1 := by rw [hcont]; rfl
    refine ⟨offsetAt contents i, offsetAt contents (i + 1), ?_, ?_, ?_⟩
    · have := callsFrom_getElem? contents 1 cs (i - 1) (by omega)
      rw [show 1 + (i - 1) = i by omega] at this
      exact this
    · have := callsFrom_getElem? contents 1 cs i (by omega)
      rw [show 1 + i = i + 1 by omega] at this
      exact this
    · rw [offsetAt_of_fit contents i hT0 hI0 (hT i (by omega)) (hI i (by omega)),
        offsetAt_of_fit contents (i + 1) hT0 hI0 (hT (i + 1) hi2) (hI (i + 1) hi2)]
      have m1 := sum_take_mono (contents.map (fun c => (scan c).1)) (by simpa using hT0) i
      have m2 := sum_take_mono (contents.map (fun c => (scan c).2)) (by simpa using hI0) i
      rw [← List.map_take, ← List.map_take] at m1 m2
      exact ⟨m1, m2⟩

theorem Concat_offsets_monotone_witness :
    2 ≤ [sampleA, sampleC, sampleB].length ∧
    (∀ c ∈ [sampleA, sampleC, sampleB], ShortLines c) ∧
    (∀ c ∈ [sampleA, sampleC, sampleB], WellFormed (textLines c)) ∧
    (∀ i, i < [sampleA, sampleC, sampleB].length →
      (([sampleA, sampleC, sampleB].take i).map (fun c => (scan c).1)).sum ≤ 9223372036854775807) ∧
    (∀ i, i < [sampleA, sampleC, sampleB].length →
      (([sampleA, sampleC, sampleB].take i).map (fun c => (scan c).2)).sum ≤ 9223372036854775807) ∧
    ∃ res, Concat true ([sampleA, sampleC, sampleB].map some) = some res ∧
      (∀ c ∈ [sampleA, sampleC, sampleB], 0 ≤ (scan c).1 ∧ 0 ≤ (scan c).2) ∧
      ∀ i, 1 ≤ i → i + 1 < [sampleA, sampleC, sampleB].length →
        ∃ a b, res.calls[i - 1]? = some a ∧ res.calls[i]? = some b ∧ a.1 ≤ b.1 ∧ a.2 ≤ b.2 :=
  ⟨by decide, by decide, by decide, by decide, by decide,
   Concat_offsets_monotone [sampleA, sampleC, sampleB] (by decide) (by decide) (by decide)
     (by decide) (by decide)⟩

/-- C11: no line is accepted by both classifier patterns: a line accepted as a
sequence number (all digits) is not accepted as a time range (digits, colon,
digits, colon, digit at the start), and a line accepted as a time range is not
accepted as a sequence number. -/
theorem patterns_mutually_exclusive (line : Str) :
    (regexpID line && regexpTime line) = false := by
  cases ht : regexpTime line with
  | false => simp
  | true => simp [regexpTime_not_regexpID ht]

/-- C13: for a 12-byte timestamp field whose eight numeric positions hold
decimal digits, timeStr2Milli returns hours*3600000 + minutes*60000 +
seconds*1000 + milliseconds, the values of the 2-digit substrings at offsets 0,
3 and 6 and of the 3-digit substring at offset 9; the bytes at offsets 2, 5 and
8 are arbitrary. -/
theorem timeStr2Milli_value (h1 h2 x m1 m2 y s1 s2 z f1 f2 f3 : Char)
    (hh1 : h1.isDigit = true) (hh2 : h2.isDigit = true)
    (hm1 : m1.isDigit = true) (hm2 : m2.isDigit = true)
    (hs1 : s1.isDigit = true) (hs2 : s2.isDigit = true)
    (hf1 : f1.isDigit = true) (hf2 : f2.isDigit = true) (hf3 : f3.isDigit = true) :
    timeStr2Milli [h1, h2, x, m1, m2, y, s1, s2, z, f1, f2, f3] =
      some ((decVal [h1, h2] : Int) * 3600000 + (decVal [m1, m2] : Int) * 60000
              + (decVal [s1, s2] : Int) * 1000 + (decVal [f1, f2, f3] : Int)) := by
  rw [timeStr2Milli_fields h1 h2 x m1 m2 y s1 s2 z f1 f2 f3 hh1 hh2 hm1 hm2 hs1 hs2 hf1 hf2 hf3]
  push_cast
  rfl

theorem timeStr2Milli_value_witness :
    timeStr2Milli "12:34:56,789".toList = some 45296789 ∧
    timeStr2Milli "12x34y56z789".toList = some 45296789 :=
  ⟨(timeStr2Milli_value '1' '2' ':' '3' '4' ':' '5' '6' ',' '7' '8' '9'
      (by decide) (by decide) (by decide) (by decide) (by decide) (by decide)
      (by decide) (by decide) (by decide)).trans (by decide),
   (timeStr2Milli_value '1' '2' 'x' '3' '4' 'y' '5' '6' 'z' '7' '8' '9'
      (by decide) (by decide) (by decide) (by decide) (by decide) (by decide)
      (by decide) (by decide) (by decide)).trans (by decide)⟩

/-- C14: for a line T1 ++ " --> " ++ T2 ++ rest with well-formed timestamps T1
and T2 and any trailing text, parseTime does not panic and returns start =
timeStr2Milli(T1), end = timeStr2Milli(T2) and extra = rest. -/
theorem parseTime_well_formed (T1 T2 rest : Str) (h1 : isTimestamp T1 = true)
    (h2 : isTimestamp T2 = true) :
    ∃ v1 v2, timeStr2Milli T1 = some v1 ∧ timeStr2Milli T2 = some v2 ∧
      parseTime (T1 ++ timeSep ++ T2 ++ rest) = some { start := v1, end_ := v2, extra := rest } := by
  have l1 := isTimestamp_length h1
  have l2 := isTimestamp_length h2
  obtain ⟨n1, hn1, _⟩ := timeStr2Milli_isTimestamp h1
  obtain ⟨n2, hn2, _⟩ := timeStr2Milli_isTimestamp h2
  refine ⟨n1, n2, hn1, hn2, ?_⟩
  have hlen : 29 ≤ (T1 ++ timeSep ++ T2 ++ rest).length := by
    have ls : timeSep.length = 5 := rfl
    simp only [List.length_append, l1, l2, ls]
    omega
  have e1 : (T1 ++ timeSep ++ T2 ++ rest).take 12 = T1 := by
    rw [List.append_assoc, List.append_assoc, List.take_append_eq_append_take, l1]
    simp [← l1]
  have e3 : ((T1 ++ timeSep ++ T2 ++ rest).drop 17).take 12 = T2 := by
    have hl17 : (T1 ++ timeSep).length = 17 := by
      have ls : timeSep.length = 5 := rfl
      simp [l1, ls]
    rw [List.append_assoc (T1 ++ timeSep), List.drop_append_eq_append_drop, hl17]
    simp only [Nat.sub_self, List.drop_zero]
    rw [show List.drop 17 (T1 ++ timeSep) = [] by rw [← hl17]; exact List.drop_length _]
    rw [List.nil_append, List.take_append_eq_append_take, l2]
    simp [← l2]
  have c1 : timeFormat.length = 12 := rfl
  have c2 : timeSep.length = 5 := rfl
  simp only [parseTime, sliceTo, sliceFrom, c1, c2, Option.bind_eq_bind]
  rw [if_pos (by omega), if_pos (by omega), if_pos (by omega)]
  simp only [Option.some_bind, List.length_drop]
  rw [if_pos (by omega)]
  simp only [Option.some_bind, e1, e3, hn1, hn2, drop_29_append rest l1 l2, Option.pure_def]

theorem parseTime_well_formed_witness :
    isTimestamp "00:00:03,000".toList = true ∧ isTimestamp "00:00:04,250".toList = true ∧
    ∃ v1 v2, timeStr2Milli "00:00:03,000".toList = some v1 ∧
      timeStr2Milli "00:00:04,250".toList = some v2 ∧
      parseTime ("00:00:03,000".toList ++ timeSep ++ "00:00:04,250".toList ++ " X1:40".toList)
        = some { start := v1, end_ := v2, extra := " X1:40".toList } :=
  ⟨by decide, by decide,
   parseTime_well_formed "00:00:03,000".toList "00:00:04,250".toList " X1:40".toList
     (by decide) (by decide)⟩

/-- C16: applying Offset(a) and then Offset(b) to a time range gives the same
start, end and trailing text as applying Offset(a+b) once; Offset leaves the
trailing text unchanged and leaves the Go difference end - start unchanged
(the mathematical difference when neither sum overflows). -/
theorem Offset_additive (t : srtTime) (a b : Int) :
    (t.Offset a).Offset b = t.Offset (a + b) ∧
    (t.Offset a).Offset b = t.Offset (goAdd a b) ∧
    (t.Offset a).extra = t.extra ∧
    wrapInt ((t.Offset a).end_ - (t.Offset a).start) = wrapInt (t.end_ - t.start) ∧
    (InIntRange (t.start + a) ∧ InIntRange (t.end_ + a) →
      (t.Offset a).end_ - (t.Offset a).start = t.end_ - t.start) := by
  refine ⟨?_, ?_, rfl, ?_, ?_⟩
  · simp only [srtTime.Offset, goAdd, wrapInt_add_left, Int.add_assoc]
  · simp only [srtTime.Offset, goAdd, wrapInt_add_left, wrapInt_add_right, Int.add_assoc]
  · simp only [srtTime.Offset, goAdd, wrapInt]
    omega
  · intro h
    simp only [srtTime.Offset, goAdd, wrapInt_of_inRange h.1, wrapInt_of_inRange h.2]
    omega

/-- C15: for a line of at least 29 bytes, parseTime panics if and only if
strconv.Atoi returns an error for at least one of the eight numeric fields of
the two timestamp substrings; no other byte of the line matters. -/
theorem parseTime_panics_iff (line : Str) (hlen : 29 ≤ line.length) :
    parseTime line = none ↔ ∃ f ∈ numericFields line, (Atoi f).2 ≠ none := by
  have l1 : (line.take 12).length = 12 := by
    simp only [List.length_take]; omega
  have l2 : ((line.drop 17).take 12).length = 12 := by
    simp only [List.length_take, List.length_drop]; omega
  rw [parseTime_eq_none line hlen, timeStr2Milli_eq_none _ l1, timeStr2Milli_eq_none _ l2]
  simp only [numericFields, List.mem_cons, List.mem_singleton, List.not_mem_nil, or_false,
    exists_eq_or_imp, exists_eq_left]
  tauto

theorem parseTime_panics_iff_witness :
    29 ≤ "00:0x:01,000 <-- 00:00:02,000".toList.length ∧
    parseTime "00:0x:01,000 <-- 00:00:02,000".toList = none ∧
    29 ≤ "00?00?01?000<<=>>+1_00_02_-50 and more".toList.length ∧
    parseTime "00?00?01?000<<=>>+1_00_02_-50 and more".toList
      = some { start := 1000, end_ := 3601950, extra := " and more".toList } := by
  refine ⟨by decide, ?_, by decide, by decide⟩
  exact (parseTime_panics_iff "00:0x:01,000 <-- 00:00:02,000".toList (by decide)).mpr
    ⟨"0x".toList, by decide, by decide⟩

/-- C17: a line that the time-range pattern accepts and that is shorter than 29
bytes makes parseTime panic (a slice out of range), and both getSRTlimits and
addSRToffset panic on every file in which such a line is read. -/
theorem short_time_line_panics (line : Str) (ht : regexpTime line = true)
    (hlen : line.length < 29) :
    parseTime line = none ∧
    ∀ content, line ∈ readLines content →
      getSRTlimits (some content) = none ∧
      ∀ w timeOff idOff, addSRToffset w (some content) timeOff idOff = none := by
  have hp := parseTime_short line hlen
  refine ⟨hp, fun content hmem => ⟨?_, fun w timeOff idOff => ?_⟩⟩
  · simp [getSRTlimits, limitsLoop_panics _ _ hmem ht hp]
  · simp [addSRToffset, offsetLoop_panics timeOff idOff _ w hmem ht hp]

theorem short_time_line_panics_witness :
    regexpTime "12:30:45".toList = true ∧ "12:30:45".toList.length < 29 ∧
    "12:30:45".toList ∈ readLines "1\n00:00:01,000 --> 00:00:02,000\n12:30:45\n".toList ∧
    parseTime "12:30:45".toList = none ∧
    getSRTlimits (some "1\n00:00:01,000 --> 00:00:02,000\n12:30:45\n".toList) = none ∧
    addSRToffset [] (some "1\n00:00:01,000 --> 00:00:02,000\n12:30:45\n".toList) 0 0 = none :=
  have h := short_time_line_panics "12:30:45".toList (by decide) (by decide)
  have hmem : "12:30:45".toList ∈ readLines "1\n00:00:01,000 --> 00:00:02,000\n12:30:45\n".toList := by
    decide
  ⟨by decide, by decide, hmem, h.1, (h.2 _ hmem).1, (h.2 _ hmem).2 [] 0 0⟩

/-- C12: for every int millis >= 0, timeMilli2Str(millis) is pad2(millis /
3600000), a colon, pad2((millis / 60000) mod 60), a colon, pad2((millis / 1000)
mod 60), a comma and pad3(millis mod 1000), where pad2 and pad3 left-pad the
decimal numeral with zeros to at least 2 and 3 digits; it has exactly 12
characters when millis < 360000000 and more than 12 otherwise. -/
theorem timeMilli2Str_format (millis : Int) (h0 : 0 ≤ millis)
    (hmax : millis ≤ 9223372036854775807) :
    timeMilli2Str millis =
      pad2 (millis.toNat / 3600000) ++ ':' :: pad2 (millis.toNat / 60000 % 60) ++ ':' ::
        pad2 (millis.toNat / 1000 % 60) ++ ',' :: pad3 (millis.toNat % 1000) ∧
    (millis < 360000000 → (timeMilli2Str millis).length = 12) ∧
    (360000000 ≤ millis → 12 < (timeMilli2Str millis).length) := by
  obtain ⟨n, rfl⟩ := Int.eq_ofNat_of_zero_le h0
  simp only [Int.toNat_ofNat]
  have hfmt : timeMilli2Str (n : Int) =
      pad2 (n / 3600000) ++ ':' :: pad2 (n / 60000 % 60) ++ ':' ::
        pad2 (n / 1000 % 60) ++ ',' :: pad3 (n % 1000) := by
    rw [timeMilli2Str_nat n (by omega), time2Str_eq_pad2, time2Str_eq_pad2, time2Str_eq_pad2,
      millis2Str_eq_pad3 (Nat.mod_lt n (by decide))]
    rw [show n / 1000 / 60 / 60 = n / 3600000 by omega, show n / 1000 / 60 = n / 60000 by omega]
  have l2 : (pad2 (n / 60000 % 60)).length = 2 := pad2_length_lt (by omega)
  have l3 : (pad2 (n / 1000 % 60)).length = 2 := pad2_length_lt (by omega)
  have l4 : (pad3 (n % 1000)).length = 3 := pad3_length_lt (by omega)
  refine ⟨hfmt, fun hlt => ?_, fun hge => ?_⟩
  · have l1 : (pad2 (n / 3600000)).length = 2 := pad2_length_lt (by omega)
    rw [hfmt]
    simp only [List.length_append, List.length_cons, l1, l2, l3, l4]
  · have l1 : 3 ≤ (pad2 (n / 3600000)).length := pad2_length_ge (by omega)
    rw [hfmt]
    simp only [List.length_append, List.length_cons, l2, l3, l4]
    omega

theorem timeMilli2Str_format_witness :
    timeMilli2Str 359999999 = "99:59:59,999".toList ∧
    timeMilli2Str 360000000 = "100:00:00,000".toList ∧
    (timeMilli2Str 9223372036854775807).length = 23 := by
  have h1 := timeMilli2Str_format 359999999 (by decide) (by decide)
  have h2 := timeMilli2Str_format 360000000 (by decide) (by decide)
  have h3 := timeMilli2Str_format 9223372036854775807 (by decide) (by decide)
  exact ⟨h1.1.trans (by decide), h2.1.trans (by decide), by rw [h3.1]; decide⟩

/-- C18: for every m with 0 <= m < 360000000, parsing the rendered timestamp
gives back m. -/
theorem timeStr2Milli_timeMilli2Str (m : Int) (h0 : 0 ≤ m) (hlt : m < 360000000) :
    timeStr2Milli (timeMilli2Str m) = some m := by
  obtain ⟨n, rfl⟩ := Int.eq_ofNat_of_zero_le h0
  have hn : n < 360000000 := by omega
  have hh : n / 1000 / 60 / 60 < 100 := by omega
  have hm : n / 1000 / 60 % 60 < 60 := by omega
  have hs : n / 1000 % 60 < 60 := by omega
  have hf : n % 1000 < 1000 := by omega
  rw [timeMilli2Str_nat n (by omega), time2Str_lt_100 hh, time2Str_lt_100 (by omega),
    time2Str_lt_100 (by omega), millis2Str_lt_1000 hf]
  have d1 := @digitChar_isDigit (n / 1000 / 60 / 60 / 10) (by omega)
  have d2 := @digitChar_isDigit (n / 1000 / 60 / 60 % 10) (by omega)
  have d3 := @digitChar_isDigit (n / 1000 / 60 % 60 / 10) (by omega)
  have d4 := @digitChar_isDigit (n / 1000 / 60 % 60 % 10) (by omega)
  have d5 := @digitChar_isDigit (n / 1000 % 60 / 10) (by omega)
  have d6 := @digitChar_isDigit (n / 1000 % 60 % 10) (by omega)
  have d7 := @digitChar_isDigit (n % 1000 / 100) (by omega)
  have d8 := @digitChar_isDigit (n % 1000 / 10 % 10) (by omega)
  have d9 := @digitChar_isDigit (n % 1000 % 10) (by omega)
  simp only [List.cons_append, List.nil_append]
  rw [timeStr2Milli_fields _ _ ':' _ _ ':' _ _ ',' _ _ _ d1.1 d2.1 d3.1 d4.1 d5.1 d6.1 d7.1 d8.1 d9.1,
    decVal_two, decVal_two, decVal_two, decVal_three,
    d1.2, d2.2, d3.2, d4.2, d5.2, d6.2, d7.2, d8.2, d9.2]
  congr 1
  omega

theorem timeStr2Milli_timeMilli2Str_witness :
    (0 : Int) ≤ 359999999 ∧ (359999999 : Int) < 360000000 ∧
    timeStr2Milli (timeMilli2Str 359999999) = some 359999999 :=
  ⟨by decide, by decide, timeStr2Milli_timeMilli2Str 359999999 (by decide) (by decide)⟩


/-- C19 (counterexample): two lists of two files on which parsing does not fail
and whose all-digit lines are the numerals 1, ..., n_j.  In the first the final
line of the first file is the bytes 2 and carriage return without a newline,
which is not all-digit: the copy ends it with a newline, so that the output has
the all-digit lines 1, 2 and 2.  In the second the second line of the first
file is 4096 times x followed by 123: the output has the all-digit lines 1, 123
and 124.  In both n_1 + n_2 = 2. -/
theorem Concat_numbers_repeat :
    ((∀ c ∈ [sampleCR, sampleOne], Numbered c ∧ ShortLines c ∧ ParsesOK (textLines c)) ∧
      textLines sampleCR = ["1".toList, "2\r".toList] ∧
      ([sampleCR, sampleOne].map seqCount).sum = 2 ∧
      numerals 0 2 = ["1".toList, "2".toList] ∧
      ∃ res, Concat true ([sampleCR, sampleOne].map some) = some res ∧ res.err = none ∧
        res.out = "1\n2\r\n\n2\n".toList ∧
        (textLines res.out).filter regexpID = ["1".toList, "2".toList, "2".toList]) ∧
    ((∀ c ∈ [sampleSplitOne, sampleOne],
        Numbered c ∧ ParsesOK (textLines c) ∧ ∀ l ∈ textLines c, l.getLast? ≠ some '\r') ∧
      textLines sampleSplitOne = ["1".toList, longLine ++ "123".toList] ∧
      ([sampleSplitOne, sampleOne].map seqCount).sum = 2 ∧
      ∃ res, Concat true ([sampleSplitOne, sampleOne].map some) = some res ∧ res.err = none ∧
        res.out = "1\n".toList ++ (longLine ++ "\n123\n\n124\n".toList) ∧
        (textLines res.out).filter regexpID = ["1".toList, "123".toList, "124".toList]) := by
  have hrun1 : Concat true ([sampleCR, sampleOne].map some) =
      some { err := none, out := "1\n2\r\n\n2\n".toList, calls := [(0, 1)] } := by decide
  have hfilter : (textLines sampleSplitOne).filter regexpID = ["1".toList] := by
    rw [textLines_sampleSplitOne, List.filter_cons_of_pos (by decide),
      List.filter_cons_of_neg (by rw [regexpID_longLine]; simp), List.filter_nil]
  have hcount : seqCount sampleSplitOne = 1 := by
    unfold seqCount; rw [hfilter]; rfl
  have hnum : Numbered sampleSplitOne := by
    unfold Numbered; rw [hcount, hfilter]; decide
  have hparse : ParsesOK (textLines sampleSplitOne) := by
    rw [textLines_sampleSplitOne]
    exact @ParsesOK_skip ["1".toList] [] (longLine ++ "123".toList) (regexpID_longLine _)
      (regexpTime_longLine _) (by decide)
  have hnocr : ∀ l ∈ textLines sampleSplitOne, l.getLast? ≠ some '\r' := by
    rw [textLines_sampleSplitOne]
    intro l hl
    simp only [List.mem_cons, List.mem_singleton, List.not_mem_nil, or_false] at hl
    rcases hl with rfl | rfl
    · decide
    · rw [getLast?_append_ne_nil (by decide)]; decide
  have hlines : ∀ l ∈ ["1".toList, longLine, "123".toList, [], "124".toList],
      '\n' ∉ l ∧ l.getLast? ≠ some '\r' := by
    intro l hl
    simp only [List.mem_cons, List.mem_singleton, List.not_mem_nil, or_false] at hl
    rcases hl with rfl | rfl | rfl | rfl | rfl
    · decide
    · exact ⟨longLine_no_newline, longLine_no_cr⟩
    · decide
    · decide
    · decide
  have hout : "1\n".toList ++ (longLine ++ "\n123\n\n124\n".toList)
      = unlines ["1".toList, longLine, "123".toList, [], "124".toList] := by
    have e1 : "1\n".toList = "1".toList ++ ['\n'] := by decide
    have e2 : "\n123\n\n124\n".toList
        = '\n' :: unlines ["123".toList, [], "124".toList] := by decide
    rw [e1, e2]
    simp only [unlines_cons, List.append_assoc, List.cons_append, List.nil_append]
  have hrun2 : Concat true ([sampleSplitOne, sampleOne].map some) =
      some { err := none, out := "1\n".toList ++ (longLine ++ "\n123\n\n124\n".toList),
             calls := [(0, 123)] } := by
    simp only [List.map_cons, List.map_nil]
    rw [Concat_pair_eq sampleSplitOne sampleOne ParsesOK_sampleSplitOne (by decide),
      readLines_sampleSplitOne, scan_of_getSRTlimits getSRTlimits_sampleSplitOne, hout]
    have e3 : unlines ((readLines sampleOne).map (writtenLine (0, (123 : Int)).1 (0, (123 : Int)).2))
        = unlines ["124".toList] := by decide
    rw [e3]
    simp only [unlines_cons, List.append_assoc, List.cons_append, List.nil_append]
    simp [unlines]
  refine ⟨⟨by decide, by decide, by decide, by decide, _, hrun1, rfl, rfl, by decide⟩,
    ?_, textLines_sampleSplitOne, ?_, _, hrun2, rfl, rfl, ?_⟩
  · intro c hc
    simp only [List.mem_cons, List.mem_singleton, List.not_mem_nil, or_false] at hc
    rcases hc with rfl | rfl
    · exact ⟨hnum, hparse, hnocr⟩
    · decide
  · simp only [List.map_cons, List.map_nil, List.sum_cons, List.sum_nil, hcount]
    decide
  · show (textLines ("1\n".toList ++ (longLine ++ "\n123\n\n124\n".toList))).filter regexpID = _
    rw [hout, textLines_unlines _ hlines, List.filter_cons_of_pos (by decide),
      List.filter_cons_of_neg (by simpa using regexpID_longLine []),
      List.filter_cons_of_pos (by decide), List.filter_cons_of_neg (by decide),
      List.filter_cons_of_pos (by decide), List.filter_nil]

/-- C19 (amended): for a list of at least two input files on which parsing does
not fail, whose lines are shorter than 4095 bytes and do not end in a carriage
return, in which the all-digit lines of every file are exactly the numerals
1, ..., n_j, and whose total n_1 + ... + n_k does not exceed the largest int,
Concat returns a nil error and the all-digit lines of its output are, in order,
exactly the numerals 1, ..., n_1 + ... + n_k. -/
theorem Concat_numbers_consecutive (contents : List Str) (hlen : 2 ≤ contents.length)
    (hshort : ∀ c ∈ contents, ShortLines c)
    (hcr : ∀ c ∈ contents, ∀ l ∈ textLines c, l.getLast? ≠ some '\r')
    (hnum : ∀ c ∈ contents, Numbered c) (hok : ∀ c ∈ contents, ParsesOK (textLines c))
    (hfit : (((contents.map seqCount).sum : Nat) : Int) ≤ 9223372036854775807) :
    ∃ res, Concat true (contents.map some) = some res ∧ res.err = none ∧
      (textLines res.out).filter regexpID = numerals 0 (contents.map seqCount).sum := by
  have hrd : ∀ c ∈ contents, readLines c = textLines c :=
    fun c hc => readLines_eq_textLines c (hshort c hc)
  have hok1 : ∀ c ∈ contents, ParsesOK (readLines c) :=
    fun c hc => by rw [hrd c hc]; exact hok c hc
  have hcr1 : ∀ c ∈ contents, ∀ l ∈ readLines c, l.getLast? ≠ some '\r' :=
    fun c hc => by rw [hrd c hc]; exact hcr c hc
  cases hcont : contents with
  | nil => rw [hcont] at hlen; simp at hlen
  | cons c0 cs =>
    have hcs : cs ≠ [] := by
      intro h; rw [hcont, h] at hlen; simp at hlen
    have hc0 : c0 ∈ contents := by rw [hcont]; simp
    have hcsmem : ∀ c ∈ cs, c ∈ contents := fun c hc => by rw [hcont]; exact List.mem_cons_of_mem _ hc
    obtain ⟨res, hrun, herr, hout⟩ :=
      Concat_out_lines c0 cs hcs (fun c hc => hok1 c (by rw [hcont]; exact hc))
    refine ⟨res, hrun, herr, ?_⟩
    have hall : ∀ l ∈ readLines c0 ++ [[]] ++ linesFrom (c0 :: cs) 1 cs,
        '\n' ∉ l ∧ l.getLast? ≠ some '\r' := by
      intro l hl
      simp only [List.mem_append, List.mem_singleton] at hl
      rcases hl with (h | h) | h
      · exact ⟨readLines_no_newline _ l h, hcr1 c0 hc0 l h⟩
      · rw [h]; simp
      · exact ⟨linesFrom_no_newline _ _ _ l h,
          linesFrom_no_cr _ _ _ (fun c hc => hcr1 c (hcsmem c hc)) l h⟩
    rw [hout, textLines_unlines _ hall]
    have h0 : (readLines c0).filter regexpID = numerals 0 (seqCount c0) := by
      rw [hrd c0 hc0]; exact hnum c0 hc0
    have hrest := linesFrom_digits (c0 :: cs) (by rw [← hcont]; exact hnum)
      (by rw [← hcont]; exact hrd) (by rw [← hcont]; exact hok1) (by rw [← hcont]; exact hfit)
      cs [c0] rfl
    simp only [List.length_singleton, List.map_cons, List.map_nil, List.sum_cons, List.sum_nil,
      Nat.add_zero] at hrest
    have hempty : List.filter regexpID [([] : Str)] = [] := by decide
    rw [List.filter_append, List.filter_append, h0, hempty, hrest, List.append_nil,
      List.map_cons, List.sum_cons]
    have := numerals_append 0 (seqCount c0) (cs.map seqCount).sum
    rw [Nat.zero_add] at this
    exact this

theorem Concat_numbers_consecutive_witness :
    2 ≤ [sampleA, sampleB, samplePair].length ∧
    (∀ c ∈ [sampleA, sampleB, samplePair], ShortLines c) ∧
    (∀ c ∈ [sampleA, sampleB, samplePair], ∀ l ∈ textLines c, l.getLast? ≠ some '\r') ∧
    (∀ c ∈ [sampleA, sampleB, samplePair], Numbered c) ∧
    (∀ c ∈ [sampleA, sampleB, samplePair], ParsesOK (textLines c)) ∧
    ([sampleA, sampleB, samplePair].map seqCount).sum = 4 ∧
    ∃ res, Concat true ([sampleA, sampleB, samplePair].map some) = some res ∧
      res.err = none ∧
      (textLines res.out).filter regexpID
        = numerals 0 ([sampleA, sampleB, samplePair].map seqCount).sum :=
  ⟨by decide, by decide, by decide, by decide, by decide, by decide,
   Concat_numbers_consecutive [sampleA, sampleB, samplePair] (by decide) (by decide) (by decide)
     (by decide) (by decide) (by decide)⟩
end Srttools
